import Mathlib

/-!
Verification of the llm-council deliberation core.

This file gives a shallow embedding of the backend's pure algorithms
(`backend/utils.py`, `backend/scores.py`, `backend/council.py`): model-name
canonicalization, rank parsing, per-reviewer point awards, the persistent EMA
score update, anonymized label assignment and the Stage2/Stage3 prompt
builders, together with theorems about them.

Modelling conventions:
* Python strings are `String` (lists of characters); the concrete regular
  expressions of the source are embedded as specialized matchers with Python
  `re.sub`/`re.findall` scanning semantics (leftmost, non-overlapping, with
  the greedy/`$`-before-final-newline behavior of the concrete patterns).
* Python dicts are association lists with insertion-order semantics:
  assignment to an existing key updates it in place, a new key is appended.
* Python floats are modelled as exact rationals (`ℚ`); `round(x, 2)` is
  round-half-to-even at two decimals.
-/

namespace LLMCouncil

/-- ASCII lowercase of a character (the case folding used by `re.IGNORECASE`
on the ASCII-only patterns of the source). -/
def lcase (c : Char) : Char :=
  if 'A' ≤ c ∧ c ≤ 'Z' then Char.ofNat (c.toNat + 32) else c

/-- Python `\s` / `str.strip` whitespace (ASCII range). -/
def isWs (c : Char) : Bool :=
  c == ' ' || c == '\t' || c == '\n' || c == '\r' ||
  c == Char.ofNat 11 || c == Char.ofNat 12

/-- Match a literal pattern (given in lowercase) case-insensitively at the
head of the input; return the remaining input on success. -/
def matchCI : List Char → List Char → Option (List Char)
  | [], cs => some cs
  | _ :: _, [] => none
  | p :: ps, c :: cs => if lcase c = p then matchCI ps cs else none

/-- Match a literal pattern case-sensitively at the head of the input. -/
def matchLit : List Char → List Char → Option (List Char)
  | [], cs => some cs
  | _ :: _, [] => none
  | p :: ps, c :: cs => if c = p then matchLit ps cs else none

/-- Is `needle` a contiguous sublist of `hay`? (Python `in` on strings.) -/
def containsSeq (needle : List Char) : List Char → Bool
  | [] => (matchLit needle []).isSome
  | c :: cs => (matchLit needle (c :: cs)).isSome || containsSeq needle cs

/-- `re.sub` for a pattern embedded as a matcher `m` that consumes at least
one character on success, replacing each non-overlapping leftmost match by
`rep`.  `fuel` bounds the recursion (callers pass the input length). -/
def substAux (m : List Char → Option (List Char)) (rep : List Char) :
    Nat → List Char → List Char
  | 0, cs => cs
  | _ + 1, [] => []
  | fuel + 1, c :: cs =>
    match m (c :: cs) with
    | some rest => rep ++ substAux m rep fuel rest
    | none => c :: substAux m rep fuel cs

def subst (m : List Char → Option (List Char)) (rep : List Char)
    (cs : List Char) : List Char :=
  substAux m rep cs.length cs

/-! ### `clean_model_name` (backend/utils.py) -/

/-- Matcher for `Chat\s*GPT` (IGNORECASE). -/
def matchChatGPT (cs : List Char) : Option (List Char) :=
  match matchCI "chat".data cs with
  | none => none
  | some r => matchCI "gpt".data (r.dropWhile isWs)

/-- Matcher for `\s*\(Ext\)\s*Thinking` (IGNORECASE). -/
def matchExtParen (cs : List Char) : Option (List Char) :=
  match matchCI "(ext)".data (cs.dropWhile isWs) with
  | none => none
  | some r => matchCI "thinking".data (r.dropWhile isWs)

/-- Matcher for `\s*\[Ext\.\s*Thinking\]` (IGNORECASE). -/
def matchExtBracket (cs : List Char) : Option (List Char) :=
  match matchCI "[ext.".data (cs.dropWhile isWs) with
  | none => none
  | some r => matchCI "thinking]".data (r.dropWhile isWs)

/-- Matcher for `\s*\[Thinking\]` (IGNORECASE). -/
def matchBracketThinking (cs : List Char) : Option (List Char) :=
  matchCI "[thinking]".data (cs.dropWhile isWs)

/-- Matcher for `\s*\(Thinking\)` (IGNORECASE). -/
def matchParenThinking (cs : List Char) : Option (List Char) :=
  matchCI "(thinking)".data (cs.dropWhile isWs)

/-- `re.sub(r"\s+Thinking$", "", s, flags=IGNORECASE)`: remove a final run of
whitespace followed by `Thinking` at the end of the string (`$` also matches
just before a final newline, which is then kept). -/
def stripTrailingThinking (cs : List Char) : List Char :=
  match cs.getLast? with
  | some '\n' =>
    let r := cs.dropLast.reverse
    if (r.take 8).map lcase = "thinking".data.reverse then
      let r2 := r.drop 8
      let r3 := r2.dropWhile isWs
      if r3.length < r2.length then r3.reverse ++ ['\n'] else cs
    else cs
  | _ =>
    let r := cs.reverse
    if (r.take 8).map lcase = "thinking".data.reverse then
      let r2 := r.drop 8
      let r3 := r2.dropWhile isWs
      if r3.length < r2.length then r3.reverse else cs
    else cs

/-- Python `str.strip()` (ASCII whitespace model). -/
def stripWs (cs : List Char) : List Char :=
  ((cs.dropWhile isWs).reverse.dropWhile isWs).reverse

/-- The character-level body of `clean_model_name`. -/
def cleanChars (cs : List Char) : List Char :=
  let s1 := subst matchChatGPT "ChatGPT".data cs
  let s2 := subst matchExtParen [] s1
  let s3 := subst matchExtBracket [] s2
  let s4 := subst matchBracketThinking [] s3
  let s5 := subst matchParenThinking [] s4
  stripWs (stripTrailingThinking s5)

/-- `clean_model_name` (backend/utils.py): normalize `Chat GPT` spacing,
remove the thinking-suffix spellings, strip whitespace.  An empty (falsy)
name is returned unchanged. -/
def clean_model_name (s : String) : String :=
  if s = "" then s else ⟨cleanChars s.data⟩

example : clean_model_name "ChatGPT 5.2 Thinking" = "ChatGPT 5.2" := by decide
example : clean_model_name "Claude Sonnet 4.6 [Ext. Thinking]" = "Claude Sonnet 4.6" := by decide
example : clean_model_name "Claude Sonnet 4.6 (Ext) Thinking" = "Claude Sonnet 4.6" := by decide
example : clean_model_name "ChatGPT 5.2 [Thinking]" = "ChatGPT 5.2" := by decide
example : clean_model_name "ChatGPT 5.2 (Thinking)" = "ChatGPT 5.2" := by decide
example : clean_model_name "Chat GPT 5.2" = "ChatGPT 5.2" := by decide
example : clean_model_name "Chat GPT 5.2 Thinking" = "ChatGPT 5.2" := by decide
example : clean_model_name "Gemini 3 Pro Preview" = "Gemini 3 Pro Preview" := by decide
example : clean_model_name "GPT-4o" = "GPT-4o" := by decide
example : clean_model_name "" = "" := by decide
example : clean_model_name "ChatGPT 5.2 thinking" = "ChatGPT 5.2" := by decide
example : clean_model_name "chat gpt 5.2" = "ChatGPT 5.2" := by decide
example : clean_model_name "A Thinking Thinking" = "A Thinking" := by decide

/-! ### Python dicts as insertion-ordered association lists -/

/-- Dict lookup (keys are unique in every dict we build, so first match). -/
def dget {α : Type} : List (String × α) → String → Option α
  | [], _ => none
  | (k', v) :: rest, k => if k' = k then some v else dget rest k

/-- Dict membership test (Python `k in d`). -/
def dhas {α : Type} (d : List (String × α)) (k : String) : Bool :=
  (dget d k).isSome

/-- Dict assignment `d[k] = v`: update an existing key in place (keeping its
insertion position), append a new key at the end. -/
def dset {α : Type} : List (String × α) → String → α → List (String × α)
  | [], k, v => [(k, v)]
  | (k', v') :: rest, k, v =>
    if k' = k then (k, v) :: rest else (k', v') :: dset rest k v

/-- Python `list.index` (first index of an element; 0 if absent — the source
only calls it on present elements). -/
def indexOfStr (k : String) : List String → Nat
  | [] => 0
  | s :: rest => if s = k then 0 else indexOfStr k rest + 1

/-! ### `parse_ranking_from_text` (backend/council.py) -/

/-- Python `str.split(sep)` for a non-empty literal separator: non-overlapping
leftmost occurrences split the string. -/
def splitOnSeq (sep : List Char) : Nat → List Char → List (List Char)
  | 0, cs => [cs]
  | _ + 1, [] =>
    match matchLit sep [] with
    | some _ => [[], []]
    | none => [[]]
  | fuel + 1, c :: cs =>
    match matchLit sep (c :: cs) with
    | some rest => [] :: splitOnSeq sep fuel rest
    | none =>
      match splitOnSeq sep fuel cs with
      | [] => [[c]]
      | p :: ps => (c :: p) :: ps

def splitSeq (sep cs : List Char) : List (List Char) :=
  splitOnSeq sep cs.length cs

/-- Matcher for the label pattern `Response [A-Z]\d*` (case-sensitive):
returns the matched label and the rest of the input. -/
def matchLabel (cs : List Char) : Option (List Char × List Char) :=
  match matchLit "Response ".data cs with
  | none => none
  | some r =>
    match r with
    | [] => none
    | c :: r2 =>
      if 'A' ≤ c ∧ c ≤ 'Z' then
        let digits := r2.takeWhile Char.isDigit
        some ("Response ".data ++ c :: digits, r2.dropWhile Char.isDigit)
      else none

/-- Matcher for the numbered pattern `\d+\.\s*Response [A-Z]\d*`; the value
returned is just the label part (the source re-extracts it with
`re.search(r'Response [A-Z]\d*', m)`). -/
def matchNumbered (cs : List Char) : Option (List Char × List Char) :=
  let digits := cs.takeWhile Char.isDigit
  if digits.isEmpty then none
  else
    match cs.dropWhile Char.isDigit with
    | '.' :: r => matchLabel (r.dropWhile isWs)
    | _ => none

/-- `re.findall` scanning: collect non-overlapping leftmost matches in
document order. -/
def scanAll (m : List Char → Option (List Char × List Char)) :
    Nat → List Char → List (List Char)
  | 0, _ => []
  | _ + 1, [] => []
  | fuel + 1, c :: cs =>
    match m (c :: cs) with
    | some (v, rest) => v :: scanAll m fuel rest
    | none => scanAll m fuel cs

def findAll (m : List Char → Option (List Char × List Char))
    (cs : List Char) : List String :=
  (scanAll m cs.length cs).map fun l => ⟨l⟩

/-- The literal ranking marker. -/
def marker : List Char := "FINAL RANKING:".data

/-- `parse_ranking_from_text` (backend/council.py): if the marker is present,
extract labels from `split(marker)[1]` (preferring the strict numbered
pattern, falling back to bare labels); otherwise scan the whole text for bare
labels. -/
def parse_ranking_from_text (t : String) : List String :=
  let cs := t.data
  if containsSeq marker cs then
    let sec := ((splitSeq marker cs).drop 1).headD []
    let numbered := findAll matchNumbered sec
    if numbered ≠ [] then numbered
    else findAll matchLabel sec
  else findAll matchLabel cs

example :
    parse_ranking_from_text "blah FINAL RANKING:\n1. Response B\n2. Response A" =
      ["Response B", "Response A"] := by decide
example :
    parse_ranking_from_text "FINAL RANKING:\n1. Response A (Model A)" =
      ["Response A"] := by decide
example :
    parse_ranking_from_text "I like Response C and Response A1 more" =
      ["Response C", "Response A1"] := by decide
example :
    parse_ranking_from_text "FINAL RANKING:\nI prefer Response B12 over Response A" =
      ["Response B12", "Response A"] := by decide
example : parse_ranking_from_text "no labels here" = [] := by decide
example :
    parse_ranking_from_text
        "FINAL RANKING:\n1. Response A\nFINAL RANKING:\n1. Response B" =
      ["Response A"] := by decide

/-! ### Scoring (backend/scores.py) -/

/-- `RANKING_POINTS` with the `.get(i, 0)` default: 25, 12, 6, 3, 2, 1, then
0 for every position 6 and beyond. -/
def rankingPoints (i : Nat) : Nat :=
  [25, 12, 6, 3, 2, 1].getD i 0

/-- `EMA_ALPHA = 0.2` (floats modelled as rationals). -/
def emaAlpha : ℚ := 1 / 5

/-- Python `round(x, 2)`: round half to even at two decimals. -/
def pyRound2 (x : ℚ) : ℚ :=
  let y := x * 100
  let f : ℤ := ⌊y⌋
  let r := y - f
  let n : ℤ :=
    if r < 1 / 2 then f
    else if 1 / 2 < r then f + 1
    else if f % 2 = 0 then f else f + 1
  (n : ℚ) / 100

/-- The `model_ranks` accumulation loop of `_calculate_points_for_review`:
collect the 1-indexed positions of each model's labels, grouped by model in
first-seen order (`i` is the 0-based position of the next label).  A label
with no mapping, or mapping to a falsy (empty) name, is skipped. -/
def modelRanksAux (ltm : List (String × String)) :
    List String → Nat → List (String × List Nat) → List (String × List Nat)
  | [], _, acc => acc
  | l :: rest, i, acc =>
    match dget ltm l with
    | some m =>
      if m = "" then modelRanksAux ltm rest (i + 1) acc
      else modelRanksAux ltm rest (i + 1) (dset acc m ((dget acc m).getD [] ++ [i + 1]))
    | none => modelRanksAux ltm rest (i + 1) acc

/-- `model_avg_ranks`: average the collected rank positions per model. -/
def modelAvgRanks (mr : List (String × List Nat)) : List (String × ℚ) :=
  mr.map fun p => (p.1, (p.2.sum : ℚ) / (p.2.length : ℚ))

/-- Stable insertion of a pair into a list sorted ascending by the rational
component (an element is placed before later elements with an equal key, as
Python's stable `sorted` does). -/
def insertByAvg (p : String × ℚ) : List (String × ℚ) → List (String × ℚ)
  | [] => [p]
  | q :: rest => if q.2 < p.2 then q :: insertByAvg p rest else p :: q :: rest

/-- Python `sorted(pairs, key=lambda x: x[1])` (stable, ascending). -/
def sortByAvg : List (String × ℚ) → List (String × ℚ)
  | [] => []
  | p :: rest => insertByAvg p (sortByAvg rest)

/-- The final loop of `_calculate_points_for_review`: walk the sorted models
and record `RANKING_POINTS.get(i, 0)` for each, keeping only positive
points (`i` is the 0-based position of the head of the list). -/
def awardPoints : List (String × ℚ) → Nat → List (String × Nat)
  | [], _ => []
  | (m, _) :: rest, i =>
    if rankingPoints i > 0 then (m, rankingPoints i) :: awardPoints rest (i + 1)
    else awardPoints rest (i + 1)

/-- `_calculate_points_for_review` (backend/scores.py). -/
def calculate_points_for_review (ranked_labels : List String)
    (reviewer_model : String) (label_to_model : List (String × String)) :
    List (String × Nat) :=
  let _ := reviewer_model
  awardPoints (sortByAvg (modelAvgRanks (modelRanksAux label_to_model ranked_labels 0 []))) 0

/-- One Stage2 result as consumed by `update_scores`: the reviewer's model
name and the raw ranking text. -/
abbrev Stage2Result := String × String

/-- The loop building `round_stats = {model: {'points': 0, 'reviews': 0} for
model in label_to_model.values()}` — one entry per distinct value, in
first-seen order. -/
def roundStatsInitAux : List (String × Nat × Nat) → List (String × String) →
    List (String × Nat × Nat)
  | acc, [] => acc
  | acc, p :: rest =>
    roundStatsInitAux (if dhas acc p.2 then acc else acc ++ [(p.2, 0, 0)]) rest

def roundStatsInit (ltm : List (String × String)) : List (String × Nat × Nat) :=
  roundStatsInitAux [] ltm

/-- Aggregate one reviewer's point map into the round statistics: models
already tracked get their points added and their review count incremented. -/
def addReview : List (String × Nat × Nat) → List (String × Nat) →
    List (String × Nat × Nat)
  | acc, [] => acc
  | acc, q :: rest =>
    addReview
      (match dget acc q.1 with
       | some pr => dset acc q.1 (pr.1 + q.2, pr.2 + 1)
       | none => acc)
      rest

/-- Step 2 of `update_scores`: parse every reviewer's ranking text, compute
its point awards and aggregate them. -/
def roundStatsAux (ltm : List (String × String)) :
    List (String × Nat × Nat) → List Stage2Result → List (String × Nat × Nat)
  | acc, [] => acc
  | acc, r :: rest =>
    roundStatsAux ltm
      (addReview acc (calculate_points_for_review (parse_ranking_from_text r.2) r.1 ltm))
      rest

def roundStats (stage2 : List Stage2Result) (ltm : List (String × String)) :
    List (String × Nat × Nat) :=
  roundStatsAux ltm (roundStatsInit ltm) stage2

/-- Step 1 of `update_scores`: any stored score above the 25-point round
maximum is a legacy value and is rewritten to 0. -/
def legacyReset (scores : List (String × ℚ)) : List (String × ℚ) :=
  scores.map fun p => (p.1, if 25 < p.2 then 0 else p.2)

/-- Step 3 of `update_scores` for one round-stats entry: skip models without
reviews, otherwise fast-start (no or zero prior score) or EMA-update the
cleaned model name. -/
def applyStat (scores : List (String × ℚ)) (st : String × Nat × Nat) :
    List (String × ℚ) :=
  if st.2.2 = 0 then scores
  else
    let avg : ℚ := (st.2.1 : ℚ) / (st.2.2 : ℚ)
    let cn := clean_model_name st.1
    match dget scores cn with
    | none => dset scores cn avg
    | some prev =>
      if prev = 0 then dset scores cn avg
      else dset scores cn (pyRound2 (prev * (1 - emaAlpha) + avg * emaAlpha))

/-- `update_scores` (backend/scores.py), with the persistent score table made
an explicit argument/result (`get_scores`/`save_scores` do the file I/O in
the source). -/
def applyStats : List (String × ℚ) → List (String × Nat × Nat) →
    List (String × ℚ)
  | scores, [] => scores
  | scores, st :: rest => applyStats (applyStat scores st) rest

def update_scores (stage2 : List Stage2Result) (ltm : List (String × String))
    (scores : List (String × ℚ)) : List (String × ℚ) :=
  applyStats (legacyReset scores) (roundStats stage2 ltm)

example :
    calculate_points_for_review
        ["Response A1", "Response B1", "Response A2", "Response B2"] "Reviewer"
        [("Response A1", "Model A"), ("Response A2", "Model A"),
         ("Response B1", "Model B"), ("Response B2", "Model B")] =
      [("Model A", 25), ("Model B", 12)] := by with_unfolding_all decide

example :
    calculate_points_for_review ["Response A", "Response B", "Response C"] "Model A"
        [("Response A", "Model A"), ("Response B", "Model B"),
         ("Response C", "Model C")] =
      [("Model A", 25), ("Model B", 12), ("Model C", 6)] := by with_unfolding_all decide

example :
    update_scores
        [("Model B", "FINAL RANKING:\n1. Response A (Model A)"),
         ("Model A", "FINAL RANKING:\n1. Response B (Model B)")]
        [("Response A", "Model A"), ("Response B", "Model B")] [] =
      [("Model A", 25), ("Model B", 25)] := by with_unfolding_all decide

example :
    update_scores
        [("Model B", "FINAL RANKING:\n1. Response A (Model A)")]
        [("Response A", "Model A"), ("Response B", "Model B")]
        [("Model A", 10)] =
      [("Model A", 13)] := by with_unfolding_all decide

example :
    update_scores
        [("Model B", "FINAL RANKING:\n1. Response X\n2. Response Y\n3. Response A")]
        [("Response A", "Model A"), ("Response X", "Model X"),
         ("Response Y", "Model Y")]
        [("Model A", 500)] =
      [("Model A", 6), ("Model X", 25), ("Model Y", 12)] := by with_unfolding_all decide

/-! ### Prompt building (backend/council.py) -/

/-- One Stage1 result: the (cleaned) model name and its response text. -/
abbrev Stage1Result := String × String

/-- One prior-conversation message for `_format_context`: its role, its
content, and (for assistant messages) the Stage3 response if present. -/
structure CtxMsg where
  role : String
  content : String
  stage3 : Option String

/-- The message loop of `_format_context`. -/
def formatContextLoop : List CtxMsg → Nat → String
  | [], _ => ""
  | msg :: rest, turn =>
    if msg.role = "user" then
      "User Question " ++ toString turn ++ ": " ++ msg.content ++ "\n" ++
        formatContextLoop rest turn
    else if msg.role = "assistant" then
      "LLM Answer " ++ toString turn ++ ": " ++ msg.stage3.getD "(No response)" ++
        "\n\n" ++ formatContextLoop rest (turn + 1)
    else formatContextLoop rest turn

/-- `_format_context` (backend/council.py); an absent (`None`) context is the
empty list. -/
def format_context (msgs : List CtxMsg) : String :=
  match msgs with
  | [] => ""
  | _ => "PREVIOUS CONTEXT:\n\n" ++ formatContextLoop msgs 1 ++ "CURRENT TASK:\n"

/-- `"\n\n".join(f"Response {label}:\n{result['response']}" ...)` over
`zip(labels, stage1_results)`. -/
def responsesText (labels : List String) (stage1 : List Stage1Result) : String :=
  String.intercalate "\n\n"
    ((labels.zip stage1).map fun p => "Response " ++ p.1 ++ ":\n" ++ p.2.2)

/-- `label[0] if len(label) > 0 else label`. -/
def letterOf (l : String) : String :=
  match l.data with
  | [] => l
  | c :: _ => String.singleton c

/-- The `model_groups` accumulation: group labels by their leading letter, in
first-seen order. -/
def buildGroups : List String → List (String × List String) → List (String × List String)
  | [], acc => acc
  | l :: rest, acc =>
    buildGroups rest (dset acc (letterOf l) ((dget acc (letterOf l)).getD [] ++ [l]))

/-- Stable insertion sort of the group list by letter key
(Python `sorted(model_groups.items())`; keys are distinct). -/
def insertGroup (p : String × List String) :
    List (String × List String) → List (String × List String)
  | [] => [p]
  | q :: rest => if q.1 < p.1 then q :: insertGroup p rest else p :: q :: rest

def sortGroups : List (String × List String) → List (String × List String)
  | [] => []
  | p :: rest => insertGroup p (sortGroups rest)

/-- The multi-round check of `build_ranking_prompt`:
`len(labels) > 0 and len(labels[0]) > 1 and labels[0][-1].isdigit()`. -/
def isMultiRound (labels : List String) : Bool :=
  match labels with
  | [] => false
  | l :: _ =>
    decide (l.length > 1) &&
      (match l.data.getLast? with
       | some c => c.isDigit
       | none => false)

/-- The text of one group explanation line. -/
def groupExplanation (g : String × List String) : String :=
  "Responses " ++ String.intercalate ", " g.2 ++
    " are from the same model (generated in separate, independent sessions)"

/-- `multi_round_note` of `build_ranking_prompt`. -/
def rankingMultiRoundNote (labels : List String) (stage1 : List Stage1Result) : String :=
  if isMultiRound labels then
    let groups := buildGroups ((labels.zip stage1).map Prod.fst) []
    if groups.any fun g => g.2.length > 1 then
      "\n\nNOTE ON RESPONSES:\n" ++
        String.intercalate "\n"
          ((sortGroups groups).filterMap fun g =>
            if g.2.length > 1 then some (groupExplanation g) else none) ++
        "\n\nEach response should be evaluated on its own merits, regardless of which model produced it.\n"
    else ""
  else ""

/-- `build_ranking_prompt` (backend/council.py). -/
def build_ranking_prompt (user_query : String) (stage1 : List Stage1Result)
    (labels : List String) (ctx : List CtxMsg) : String :=
  "You are evaluating different responses to the following question:\n\n" ++
  format_context ctx ++
  "\nQuestion: " ++ user_query ++
  "\n\nHere are the responses from different models (anonymized):\n\n" ++
  responsesText labels stage1 ++ "\n" ++
  rankingMultiRoundNote labels stage1 ++
  "\nYour task:\n" ++
  "1. First, evaluate each response individually. For each response, explain what it does well and what it does poorly.\n" ++
  "2. Then, at the very end of your response, provide a final ranking.\n\n" ++
  "IMPORTANT: Your final ranking MUST be formatted EXACTLY as follows:\n" ++
  "- Start with the line \"FINAL RANKING:\" (all caps, with colon)\n" ++
  "- Then list the responses from best to worst as a numbered list\n" ++
  "- Each line should be: number, period, space, then ONLY the response label (e.g., \"1. Response A1\")\n" ++
  "- Do not add any other text or explanations in the ranking section\n\n" ++
  "Example of the correct format for your ENTIRE response:\n\n" ++
  "Response A1 provides good detail on X but misses Y...\n" ++
  "Response A2 is accurate but lacks depth on Z...\n" ++
  "Response B1 offers the most comprehensive answer...\n\n" ++
  "FINAL RANKING:\n1. Response B1\n2. Response A1\n3. Response A2\n\n" ++
  "Now provide your evaluation and ranking:"

/-- The label-assignment loop of `build_chairman_prompt`: walking the Stage1
results while maintaining `model_order` and `model_counts`, producing final
order, final counts, and the grouped labels (`letter` = position of the model
in first-seen order, `round_num` = its 1-indexed occurrence count). -/
def chairAux : List Stage1Result → List String → List (String × Nat) →
    List String × List (String × Nat) × List String
  | [], order, counts => (order, counts, [])
  | r :: rest, order, counts =>
    let m := r.1
    let order1 := if dhas counts m then order else order ++ [m]
    let counts1 := if dhas counts m then counts else dset counts m 0
    let c := (dget counts1 m).getD 0 + 1
    let counts2 := dset counts1 m c
    let lbl := String.singleton (Char.ofNat (65 + indexOfStr m order1)) ++ toString c
    let res := chairAux rest order1 counts2
    (res.1, res.2.1, lbl :: res.2.2)

/-- The grouped labels of `build_chairman_prompt`. -/
def chairLabels (stage1 : List Stage1Result) : List String :=
  (chairAux stage1 [] []).2.2

/-- `model_to_label`: maps each Stage1 model to `Response <label>` (the last
of its labels wins for reviewer matching, as noted in the source). -/
def modelToLabelAux : List (String × String) → List (String × Stage1Result) →
    List (String × String)
  | acc, [] => acc
  | acc, p :: rest => modelToLabelAux (dset acc p.2.1 ("Response " ++ p.1)) rest

def modelToLabel (labels : List String) (stage1 : List Stage1Result) :
    List (String × String) :=
  modelToLabelAux [] (labels.zip stage1)

/-- `multi_round_note` of `build_chairman_prompt`. -/
def chairMultiRoundNote (labels : List String) (stage1 : List Stage1Result)
    (isMulti : Bool) : String :=
  if isMulti then
    let groups := buildGroups ((labels.zip stage1).map Prod.fst) []
    let ge := (sortGroups groups).filterMap fun g =>
      if g.2.length > 1 then some (groupExplanation g) else none
    if ge ≠ [] then "\n\nNOTE: " ++ String.intercalate "; " ge ++ "\n" else ""
  else ""

/-- `build_chairman_prompt` (backend/council.py): Stage1 responses and Stage2
rankings rendered under grouped anonymized labels; a reviewer that is not
found among the Stage1 models falls back to its raw name. -/
def build_chairman_prompt (user_query : String) (stage1 : List Stage1Result)
    (stage2 : List Stage2Result) (ctx : List CtxMsg) : String :=
  let st := chairAux stage1 [] []
  let labels := st.2.2
  let isMulti := st.2.1.any fun p => p.2 > 1
  let mtl := modelToLabel labels stage1
  let stage2Text := String.intercalate "\n\n"
    (stage2.map fun r => "Ranking by " ++ (dget mtl r.1).getD r.1 ++ ":\n" ++ r.2)
  "You are the Chairman of an LLM Council. Multiple AI models have provided responses to a user's question, and then ranked each other's responses.\n\n" ++
  format_context ctx ++
  "\nOriginal Question: " ++ user_query ++
  "\n\nSTAGE 1 - Individual Responses (Anonymized):\n" ++
  responsesText labels stage1 ++ "\n" ++
  chairMultiRoundNote labels stage1 isMulti ++
  "\nSTAGE 2 - Peer Rankings (Anonymized):\n" ++
  stage2Text ++
  "\n\nYour task as Chairman is to synthesize all of this information into a single, comprehensive, accurate answer to the user's original question. Consider:\n" ++
  "- The individual responses and their insights\n" ++
  "- The peer rankings and what they reveal about response quality\n" ++
  "- Any patterns of agreement or disagreement\n" ++
  "- The previous conversation context (if any) to ensure continuity\n\n" ++
  "Provide a clear, well-reasoned final answer that represents the council's collective wisdom:"

/-! ### Stage2 label assignment (`stage2_collect_rankings`) -/

/-- `labels = [chr(65 + i) for i in range(len(stage1_results))]`: positional
letters, regardless of duplicate models. -/
def stage2_labels (stage1 : List Stage1Result) : List String :=
  (List.range stage1.length).map fun i => String.singleton (Char.ofNat (65 + i))

/-- `label_to_model = {f"Response {label}": result['model'] ...}`. -/
def stage2LtmAux : List (String × String) → List (String × Stage1Result) →
    List (String × String)
  | acc, [] => acc
  | acc, p :: rest => stage2LtmAux (dset acc ("Response " ++ p.1) p.2.1) rest

def stage2_label_to_model (stage1 : List Stage1Result) : List (String × String) :=
  stage2LtmAux [] ((stage2_labels stage1).zip stage1)

example : stage2_labels [("M", "r1"), ("M", "r2")] = ["A", "B"] := by decide
example : chairLabels [("M", "r1"), ("M", "r2"), ("N", "r3")] = ["A1", "A2", "B1"] := by decide

/-! ### The pipeline (`run_full_council`)

Modelled from the spec: the provider layer (`backend/openrouter.py`, models
list `backend/config.py`) is not in the sources; per the spec,
`ModelProvider.Query(agentID, messages) -> Result<text>` with "any error,
timeout, or empty result treated uniformly as no answer", and Stage1/Stage2
keep only successes in configured list order.  A provider is therefore an
oracle giving, per council model, the optional Stage1 answer and the optional
Stage2 ranking reply, plus the optional chairman reply. -/

structure Provider where
  stage1Query : String → Option String
  stage2Query : String → Option String
  chairmanQuery : Option String

/-- `stage1_collect_responses`: query all council models, keep successes in
configured order, cleaning the model name. -/
def stage1_collect_responses (models : List String) (p : Provider) :
    List Stage1Result :=
  models.filterMap fun m => (p.stage1Query m).map fun t => (clean_model_name m, t)

/-- `stage2_collect_rankings`: the ranking replies of the council models that
answered (cleaned names, raw ranking text), plus the label→model map. -/
def stage2_collect_rankings (models : List String) (p : Provider)
    (stage1 : List Stage1Result) : List Stage2Result × List (String × String) :=
  (models.filterMap fun m => (p.stage2Query m).map fun t => (clean_model_name m, t),
   stage2_label_to_model stage1)

/-- `stage3_synthesize_final`: a chairman failure yields the explicit
error-text result (with the raw chairman name); success yields the cleaned
chairman name and the reply. -/
def stage3_synthesize_final (chairmanModel : String) (reply : Option String) :
    String × String :=
  match reply with
  | none => (chairmanModel, "Error: Unable to generate final synthesis.")
  | some t => (clean_model_name chairmanModel, t)

/-- The result of one full council turn: the three stage outputs, the
label→model metadata, and the persistent score table after the turn. -/
structure CouncilOutcome where
  stage1 : List Stage1Result
  stage2 : List Stage2Result
  stage3 : String × String
  labelToModel : List (String × String)
  scores : List (String × ℚ)

/-- `run_full_council` (backend/council.py): Stage1; on zero successes a
terminal synthetic error result with no further stages; otherwise Stage2,
score update, Stage3. -/
def run_full_council (models : List String) (chairmanModel : String)
    (p : Provider) (scores : List (String × ℚ)) : CouncilOutcome :=
  let s1 := stage1_collect_responses models p
  if s1 = [] then
    ⟨[], [], (chairmanModel, "Error: No models available."), [], scores⟩
  else
    let s2 := stage2_collect_rankings models p s1
    let scores2 := update_scores s2.1 s2.2 scores
    let s3 := stage3_synthesize_final chairmanModel p.chairmanQuery
    ⟨s1, s2.1, s3, s2.2, scores2⟩

/-! ### Auxiliary notions used only in theorem statements -/

/-- Case-insensitive substring occurrence. -/
def containsSeqCI (needle : List Char) : List Char → Bool
  | [] => (matchCI needle []).isSome
  | c :: cs => (matchCI needle (c :: cs)).isSome || containsSeqCI needle cs

/-- The text after the first occurrence of `sep` (fuel-bounded scan). -/
def afterFirst (sep : List Char) : Nat → List Char → List Char
  | 0, _ => []
  | _ + 1, [] => []
  | fuel + 1, c :: cs =>
    match matchLit sep (c :: cs) with
    | some rest => rest
    | none => afterFirst sep fuel cs

/-- The text before the next occurrence of `sep` (the whole text when `sep`
does not occur). -/
def upToNext (sep : List Char) : Nat → List Char → List Char
  | 0, _ => []
  | _ + 1, [] => []
  | fuel + 1, c :: cs =>
    match matchLit sep (c :: cs) with
    | some _ => []
    | none => c :: upToNext sep fuel cs

/-- The segment of the text strictly between the first occurrence of `sep`
and its next occurrence (or the end of the text). -/
def segBetween (sep cs : List Char) : List Char :=
  let rest := afterFirst sep cs.length cs
  upToNext sep rest.length rest

/-- Renaming of the agent identities of Stage1 results (used to state that
prompt text depends on agents only through their anonymized labels). -/
def renameS1 (f : String → String) (s1 : List Stage1Result) :
    List Stage1Result :=
  s1.map fun r => (f r.1, r.2)

/-- Renaming of the reviewer identities of Stage2 results. -/
def renameS2 (f : String → String) (s2 : List Stage2Result) :
    List Stage2Result :=
  s2.map fun r => (f r.1, r.2)

/-- Renaming of the keys of an association list. -/
def mapKeys {α : Type} (f : String → String) (d : List (String × α)) :
    List (String × α) :=
  d.map fun p => (f p.1, p.2)

/-- Spec-side label resolution: a ranked label stands for its mapped,
non-falsy agent. -/
def mapOk (ltm : List (String × String)) (l : String) : Option String :=
  match dget ltm l with
  | some m => if m = "" then none else some m
  | none => none

/-- First-seen deduplication of a list of agent names. -/
def firstSeen : List String → List String
  | [] => []
  | m :: rest => m :: (firstSeen rest).filter fun x => x ≠ m

/-- The 1-indexed positions, in this reviewer's label list, of the labels
resolving to agent `m` (`i` is the 0-based position of the first label). -/
def posFrom (ltm : List (String × String)) (m : String) :
    List String → Nat → List Nat
  | [], _ => []
  | l :: rest, i =>
    (if mapOk ltm l = some m then [i + 1] else []) ++ posFrom ltm m rest (i + 1)

/-- The per-agent occurrence counts of a processed prefix of the Stage1
models, keyed in first-seen order (the reference shape of the
`model_counts` dict of `build_chairman_prompt`). -/
def countsOf (pre : List String) : List (String × Nat) :=
  (firstSeen pre).map fun m => (m, pre.count m)

/-- The chairman labeling as the spec describes the Anonymizer: each agent
keeps one stable letter assigned at its first occurrence (its index in the
first-seen order of the turn's agents) and each of its responses gets that
letter followed by its 1-indexed occurrence number. -/
def specChairLabels (stage1 : List Stage1Result) : List String :=
  stage1.enum.map fun p =>
    String.singleton
        (Char.ofNat (65 + indexOfStr p.2.1 (firstSeen (stage1.map Prod.fst)))) ++
      toString (((stage1.map Prod.fst).take (p.1 + 1)).count p.2.1)

/-- `PointsForReview` as the spec words it: group this single reviewer's
labels by agent in first-seen order, collapse each agent's several positions
into one group-rank (their average), re-sort agents by group-rank ascending
(stably) and assign points `25, 12, 6, 3, 2, 1, 0, 0, …` by resulting
0-based position, keeping only agents with points. -/
def specPointsForReview (labels : List String)
    (ltm : List (String × String)) : List (String × Nat) :=
  let ranked := sortByAvg
    ((firstSeen (labels.filterMap (mapOk ltm))).map fun m =>
      (m, ((posFrom ltm m labels 0).sum : ℚ) / ((posFrom ltm m labels 0).length : ℚ)))
  ranked.enum.filterMap fun p =>
    if rankingPoints p.1 > 0 then some (p.2.1, rankingPoints p.1) else none

/-! ## Association-list lemmas -/

theorem dget_dset_self {α : Type} (d : List (String × α)) (k : String) (v : α) :
    dget (dset d k v) k = some v := by
  induction d with
  | nil => simp [dset, dget]
  | cons p rest ih =>
    obtain ⟨k', v'⟩ := p
    by_cases h : k' = k <;> simp [dset, dget, h, ih]

theorem dget_dset_ne {α : Type} (d : List (String × α)) {k k' : String} (v : α)
    (h : k' ≠ k) : dget (dset d k v) k' = dget d k' := by
  induction d with
  | nil => simp [dset, dget, Ne.symm h]
  | cons p rest ih =>
    obtain ⟨k₀, v₀⟩ := p
    by_cases h₀ : k₀ = k
    · subst h₀
      simp [dset, dget, Ne.symm h]
    · by_cases h₁ : k₀ = k' <;> simp [dset, dget, h₀, h₁, ih, h]

theorem dget_eq_none_iff {α : Type} (d : List (String × α)) (k : String) :
    dget d k = none ↔ ∀ p ∈ d, p.1 ≠ k := by
  induction d with
  | nil => simp [dget]
  | cons p rest ih =>
    obtain ⟨k', v'⟩ := p
    by_cases h : k' = k <;> simp [dget, h, ih]

theorem dget_mem {α : Type} {d : List (String × α)} {k : String} {v : α}
    (h : dget d k = some v) : (k, v) ∈ d := by
  induction d with
  | nil => simp [dget] at h
  | cons p rest ih =>
    obtain ⟨k', v'⟩ := p
    by_cases h' : k' = k
    · subst h'
      simp [dget] at h
      simp [h]
    · simp [dget, h'] at h
      exact List.mem_cons_of_mem _ (ih h)

theorem mem_dset {α : Type} {d : List (String × α)} {k : String} {v : α}
    {p : String × α} (h : p ∈ dset d k v) : p ∈ d ∨ p = (k, v) := by
  induction d with
  | nil => simp [dset] at h; simp [h]
  | cons q rest ih =>
    obtain ⟨k₀, v₀⟩ := q
    by_cases h₀ : k₀ = k
    · subst h₀
      simp [dset] at h
      rcases h with h | h
      · right; exact h
      · left; exact List.mem_cons_of_mem _ h
    · simp [dset, h₀] at h
      rcases h with h | h
      · left; simp [h]
      · rcases ih h with h' | h'
        · left; exact List.mem_cons_of_mem _ h'
        · right; exact h'

theorem keys_dset_present {α : Type} {d : List (String × α)} {k : String}
    {w : α} (h : dget d k = some w) (v : α) :
    (dset d k v).map Prod.fst = d.map Prod.fst := by
  induction d with
  | nil => simp [dget] at h
  | cons p rest ih =>
    obtain ⟨k', v'⟩ := p
    by_cases h' : k' = k
    · subst h'
      simp [dset]
    · simp [dget, h'] at h
      simp [dset, h', ih h]

theorem keys_dset_absent {α : Type} {d : List (String × α)} {k : String}
    (h : dget d k = none) (v : α) :
    (dset d k v).map Prod.fst = d.map Prod.fst ++ [k] := by
  induction d with
  | nil => simp [dset]
  | cons p rest ih =>
    obtain ⟨k', v'⟩ := p
    by_cases h' : k' = k
    · subst h'
      simp [dget] at h
    · simp [dget, h'] at h
      simp [dset, h', ih h]

theorem dget_isSome_of_mem_keys {α : Type} {d : List (String × α)} {k : String}
    (h : k ∈ d.map Prod.fst) : (dget d k).isSome := by
  induction d with
  | nil => simp at h
  | cons p rest ih =>
    obtain ⟨k', v'⟩ := p
    by_cases h' : k' = k
    · simp [dget, h']
    · simp only [List.map_cons, List.mem_cons] at h
      rcases h with h | h
      · exact absurd h.symm h'
      · simpa [dget, h'] using ih h

/-! ## Point-award lemmas -/

theorem rankingPoints_eq_zero {i : Nat} (h : 6 ≤ i) : rankingPoints i = 0 := by
  unfold rankingPoints
  exact List.getD_eq_default _ _ (by simpa using h)

theorem rankingPoints_pos_lt {i : Nat} (h : 0 < rankingPoints i) : i < 6 := by
  by_contra h'
  rw [rankingPoints_eq_zero (Nat.le_of_not_lt h')] at h
  exact Nat.lt_irrefl 0 h

theorem mem_awardPoints {ms : List (String × ℚ)} {j : Nat} {m : String} {p : Nat}
    (h : (m, p) ∈ awardPoints ms j) :
    ∃ i, (ms.get? i).map Prod.fst = some m ∧ rankingPoints (j + i) = p := by
  induction ms generalizing j with
  | nil => simp [awardPoints] at h
  | cons q rest ih =>
    obtain ⟨m₀, a₀⟩ := q
    by_cases hp : rankingPoints j > 0
    · rw [awardPoints, if_pos hp] at h
      rcases List.mem_cons.mp h with h | h
      · obtain ⟨h1, h2⟩ := Prod.mk.injEq .. ▸ h
        exact ⟨0, by simp [h1.symm], by simpa using h2.symm⟩
      · obtain ⟨i, hi, hr⟩ := ih h
        exact ⟨i + 1, by simpa using hi, by rw [← hr]; ring_nf⟩
    · rw [awardPoints, if_neg hp] at h
      obtain ⟨i, hi, hr⟩ := ih h
      exact ⟨i + 1, by simpa using hi, by rw [← hr]; ring_nf⟩

theorem mem_awardPoints_pos {ms : List (String × ℚ)} {j : Nat} {m : String}
    {p : Nat} (h : (m, p) ∈ awardPoints ms j) : 0 < p := by
  induction ms generalizing j with
  | nil => simp [awardPoints] at h
  | cons q rest ih =>
    obtain ⟨m₀, a₀⟩ := q
    by_cases hp : rankingPoints j > 0
    · rw [awardPoints, if_pos hp] at h
      rcases List.mem_cons.mp h with h | h
      · obtain ⟨-, h2⟩ := Prod.mk.injEq .. ▸ h
        exact h2 ▸ hp
      · exact ih h
    · rw [awardPoints, if_neg hp] at h
      exact ih h

theorem mem_insertByAvg {p q : String × ℚ} {l : List (String × ℚ)}
    (h : q ∈ insertByAvg p l) : q = p ∨ q ∈ l := by
  induction l with
  | nil => simp [insertByAvg] at h; left; exact h
  | cons r rest ih =>
    rw [insertByAvg] at h
    by_cases hc : r.2 < p.2
    · rw [if_pos hc] at h
      rcases List.mem_cons.mp h with h | h
      · right; rw [h]; exact List.mem_cons_self r rest
      · rcases ih h with h | h
        · left; exact h
        · right; exact List.mem_cons_of_mem _ h
    · rw [if_neg hc] at h
      rcases List.mem_cons.mp h with h | h
      · left; exact h
      · right; exact h

theorem mem_sortByAvg {q : String × ℚ} {l : List (String × ℚ)}
    (h : q ∈ sortByAvg l) : q ∈ l := by
  induction l with
  | nil => simp [sortByAvg] at h
  | cons p rest ih =>
    rw [sortByAvg] at h
    rcases mem_insertByAvg h with h | h
    · exact h ▸ List.mem_cons_self p rest
    · exact List.mem_cons_of_mem _ (ih h)

theorem mem_modelRanksAux {ltm : List (String × String)} {labels : List String}
    {i : Nat} {acc : List (String × List Nat)} {q : String × List Nat}
    (h : q ∈ modelRanksAux ltm labels i acc) :
    q.1 ∈ acc.map Prod.fst ∨ ∃ l ∈ labels, dget ltm l = some q.1 ∧ q.1 ≠ "" := by
  induction labels generalizing i acc with
  | nil =>
    rw [modelRanksAux] at h
    left
    exact List.mem_map_of_mem Prod.fst h
  | cons l rest ih =>
    rw [modelRanksAux] at h
    rcases hm : dget ltm l with _ | m
    · simp only [hm] at h
      rcases ih h with h | ⟨l', hl', hd⟩
      · left; exact h
      · right; exact ⟨l', List.mem_cons_of_mem _ hl', hd⟩
    · simp only [hm] at h
      by_cases he : m = ""
      · rw [if_pos he] at h
        rcases ih h with h | ⟨l', hl', hd⟩
        · left; exact h
        · right; exact ⟨l', List.mem_cons_of_mem _ hl', hd⟩
      · rw [if_neg he] at h
        rcases ih h with h | ⟨l', hl', hd⟩
        · by_cases hq : q.1 = m
          · right
            exact ⟨l, List.mem_cons_self l rest, hq ▸ hm, hq ▸ he⟩
          · left
            rcases hd : dget acc m with _ | old
            · rw [keys_dset_absent hd] at h
              rcases List.mem_append.mp h with h | h
              · exact h
              · simp at h; exact absurd h hq
            · rwa [keys_dset_present hd] at h
        · right; exact ⟨l', List.mem_cons_of_mem _ hl', hd⟩

/-- Provenance of a point award: an agent in the award map of one review was
resolved from some ranked label via the label→model map. -/
theorem mem_calc_points {labels : List String} {r : String}
    {ltm : List (String × String)} {m : String} {p : Nat}
    (h : (m, p) ∈ calculate_points_for_review labels r ltm) :
    ∃ l ∈ labels, dget ltm l = some m := by
  unfold calculate_points_for_review at h
  obtain ⟨i, hi, -⟩ := mem_awardPoints h
  rcases hg : (sortByAvg (modelAvgRanks (modelRanksAux ltm labels 0 []))).get? i
    with _ | q
  · rw [hg] at hi; exact absurd hi (by simp)
  · rw [hg] at hi
    simp at hi
    have hq := mem_sortByAvg (List.get?_mem hg)
    unfold modelAvgRanks at hq
    obtain ⟨q', hq', he⟩ := List.mem_map.mp hq
    rcases mem_modelRanksAux hq' with h' | ⟨l, hl, hd, -⟩
    · simp at h'
    · refine ⟨l, hl, ?_⟩
      have : q'.1 = m := by
        have := congrArg Prod.fst he
        simpa [hi] using this
      exact this ▸ hd

/-- A reviewer whose point map has no entry for a model contributes neither
points nor a review count to that model's round statistics. -/
theorem addReview_frame (acc : List (String × Nat × Nat))
    (pm : List (String × Nat)) (m : String) (h : dget pm m = none) :
    dget (addReview acc pm) m = dget acc m := by
  induction pm generalizing acc with
  | nil => rfl
  | cons q rest ih =>
    obtain ⟨k, v⟩ := q
    rw [dget] at h
    by_cases hk : k = m
    · rw [if_pos hk] at h; exact absurd h (by simp)
    · rw [if_neg hk] at h
      rw [addReview]
      rw [ih _ h]
      rcases hd : dget acc k with _ | pr
      · simp [hd]
      · simp only [hd]
        exact dget_dset_ne acc _ (Ne.symm hk)

/-! ## Score-update lemmas -/

theorem dget_legacyReset (scores : List (String × ℚ)) (k : String) :
    dget (legacyReset scores) k =
      (dget scores k).map fun v => if 25 < v then 0 else v := by
  induction scores with
  | nil => rfl
  | cons p rest ih =>
    obtain ⟨k', v⟩ := p
    show dget ((k', if 25 < v then 0 else v) :: legacyReset rest) k = _
    by_cases h : k' = k
    · simp [dget, h]
    · simp [dget, h, ih]

theorem dget_applyStat_ne {sc : List (String × ℚ)} {st : String × Nat × Nat}
    {k : String} (h : st.2.2 = 0 ∨ clean_model_name st.1 ≠ k) :
    dget (applyStat sc st) k = dget sc k := by
  rcases h with h | h
  · rw [applyStat, if_pos h]
  · rw [applyStat]
    by_cases h0 : st.2.2 = 0
    · rw [if_pos h0]
    · rw [if_neg h0]
      rcases hd : dget sc (clean_model_name st.1) with _ | prev
      · simp only [hd]
        exact dget_dset_ne _ _ (Ne.symm h)
      · simp only [hd]
        by_cases hp : prev = 0
        · rw [if_pos hp]
          exact dget_dset_ne _ _ (Ne.symm h)
        · rw [if_neg hp]
          exact dget_dset_ne _ _ (Ne.symm h)

theorem applyStats_frame {ss : List (String × Nat × Nat)}
    (sc : List (String × ℚ)) (k : String)
    (h : ∀ st ∈ ss, st.2.2 = 0 ∨ clean_model_name st.1 ≠ k) :
    dget (applyStats sc ss) k = dget sc k := by
  induction ss generalizing sc with
  | nil => rfl
  | cons st rest ih =>
    rw [applyStats, ih _ fun s hs => h s (List.mem_cons_of_mem _ hs)]
    exact dget_applyStat_ne (h st (List.mem_cons_self st rest))

theorem applyStats_append (sc : List (String × ℚ))
    (l1 l2 : List (String × Nat × Nat)) :
    applyStats sc (l1 ++ l2) = applyStats (applyStats sc l1) l2 := by
  induction l1 generalizing sc with
  | nil => rfl
  | cons st rest ih => rw [List.cons_append, applyStats, applyStats, ih]

theorem keys_addReview (acc : List (String × Nat × Nat))
    (pm : List (String × Nat)) :
    (addReview acc pm).map Prod.fst = acc.map Prod.fst := by
  induction pm generalizing acc with
  | nil => rfl
  | cons q rest ih =>
    rw [addReview, ih]
    rcases hd : dget acc q.1 with _ | pr
    · simp only [hd]
    · simp only [hd]
      exact keys_dset_present hd _

theorem keys_roundStatsAux (ltm : List (String × String))
    (acc : List (String × Nat × Nat)) (s2 : List Stage2Result) :
    (roundStatsAux ltm acc s2).map Prod.fst = acc.map Prod.fst := by
  induction s2 generalizing acc with
  | nil => rfl
  | cons r rest ih => rw [roundStatsAux, ih, keys_addReview]

theorem roundStatsInitAux_nodup (ltm : List (String × String))
    (acc : List (String × Nat × Nat)) (h : (acc.map Prod.fst).Nodup) :
    ((roundStatsInitAux acc ltm).map Prod.fst).Nodup := by
  induction ltm generalizing acc with
  | nil => exact h
  | cons p rest ih =>
    rw [roundStatsInitAux]
    by_cases hd : dhas acc p.2
    · rw [if_pos hd]; exact ih _ h
    · rw [if_neg hd]
      apply ih
      have hnotin : p.2 ∉ acc.map Prod.fst := by
        intro hmem
        exact hd (dget_isSome_of_mem_keys hmem)
      simp [List.nodup_append, h, hnotin]

theorem dget_of_mem_nodup {α : Type} {d : List (String × α)}
    (hnd : (d.map Prod.fst).Nodup) {k : String} {v : α} (hm : (k, v) ∈ d) :
    dget d k = some v := by
  induction d with
  | nil => simp at hm
  | cons p rest ih =>
    obtain ⟨k', v'⟩ := p
    simp only [List.map_cons, List.nodup_cons] at hnd
    rcases List.mem_cons.mp hm with he | hm'
    · injection he with h1 h2
      rw [dget, if_pos h1.symm, h2]
    · have hk : k' ≠ k := by
        intro e
        exact hnd.1 (e ▸ List.mem_map_of_mem Prod.fst hm')
      rw [dget, if_neg hk]
      exact ih hnd.2 hm'

theorem dget_decomp {α : Type} {d : List (String × α)}
    (hnd : (d.map Prod.fst).Nodup) {k : String} {v : α}
    (h : dget d k = some v) :
    ∃ pre post, d = pre ++ (k, v) :: post ∧
      (∀ p ∈ pre, p.1 ≠ k) ∧ (∀ p ∈ post, p.1 ≠ k) := by
  induction d with
  | nil => simp [dget] at h
  | cons p rest ih =>
    obtain ⟨k', v'⟩ := p
    simp only [List.map_cons, List.nodup_cons] at hnd
    by_cases hk : k' = k
    · subst hk
      rw [dget, if_pos rfl] at h
      injection h with hv
      refine ⟨[], rest, by rw [hv]; simp, by simp, ?_⟩
      · intro p hp e
        exact hnd.1 (e ▸ List.mem_map_of_mem Prod.fst hp)
    · rw [dget, if_neg hk] at h
      obtain ⟨pre, post, he, h1, h2⟩ := ih hnd.2 h
      refine ⟨(k', v') :: pre, post, by simp [he], ?_, h2⟩
      intro p hp
      rcases List.mem_cons.mp hp with hp | hp
      · rw [hp]; exact hk
      · exact h1 p hp

theorem addReview_source {acc : List (String × Nat × Nat)}
    {pm : List (String × Nat)} {m : String} {pts revs : Nat}
    (h : dget (addReview acc pm) m = some (pts, revs)) (hr : 0 < revs) :
    (∃ p, (m, p) ∈ pm) ∨ ∃ pr, dget acc m = some pr ∧ 0 < pr.2 := by
  induction pm generalizing acc with
  | nil => right; exact ⟨(pts, revs), h, hr⟩
  | cons q rest ih =>
    rw [addReview] at h
    rcases ih h with ⟨p, hp⟩ | ⟨pr, hpr, hpos⟩
    · left; exact ⟨p, List.mem_cons_of_mem _ hp⟩
    · by_cases hq : q.1 = m
      · left
        refine ⟨q.2, ?_⟩
        have : q = (m, q.2) := by rw [← hq]
        exact this ▸ List.mem_cons_self q rest
      · right
        refine ⟨pr, ?_, hpos⟩
        rcases hd : dget acc q.1 with _ | pr0
        · simpa only [hd] using hpr
        · simp only [hd] at hpr
          rwa [dget_dset_ne _ _ fun e => hq e.symm] at hpr

theorem roundStatsAux_source {ltm : List (String × String)}
    {s2 : List Stage2Result} {acc : List (String × Nat × Nat)} {m : String}
    {pts revs : Nat}
    (h : dget (roundStatsAux ltm acc s2) m = some (pts, revs)) (hr : 0 < revs) :
    (∃ r ∈ s2, ∃ p,
        (m, p) ∈ calculate_points_for_review (parse_ranking_from_text r.2) r.1 ltm) ∨
      ∃ pr, dget acc m = some pr ∧ 0 < pr.2 := by
  induction s2 generalizing acc with
  | nil => right; exact ⟨(pts, revs), h, hr⟩
  | cons r rest ih =>
    rw [roundStatsAux] at h
    rcases ih h with ⟨r', hr', hp⟩ | ⟨pr, hpr, hpos⟩
    · left; exact ⟨r', List.mem_cons_of_mem _ hr', hp⟩
    · obtain ⟨a, b⟩ := pr
      rcases addReview_source hpr hpos with ⟨p, hp⟩ | ⟨pr', hpr', hpos'⟩
      · left; exact ⟨r, List.mem_cons_self r rest, p, hp⟩
      · right; exact ⟨pr', hpr', hpos'⟩

theorem roundStatsInitAux_values {ltm : List (String × String)}
    {acc : List (String × Nat × Nat)}
    (h : ∀ p ∈ acc, p.2 = ((0 : Nat), (0 : Nat))) {q : String × Nat × Nat}
    (hm : q ∈ roundStatsInitAux acc ltm) : q.2 = (0, 0) := by
  induction ltm generalizing acc with
  | nil => exact h _ hm
  | cons p rest ih =>
    rw [roundStatsInitAux] at hm
    by_cases hd : dhas acc p.2
    · rw [if_pos hd] at hm; exact ih h hm
    · rw [if_neg hd] at hm
      refine ih ?_ hm
      intro x hx
      rcases List.mem_append.mp hx with hx | hx
      · exact h _ hx
      · rw [List.mem_singleton] at hx; rw [hx]

/-- An agent whose round statistics show a positive review count was resolved
from some label in some reviewer's parsed ranking. -/
theorem roundStats_mentioned {stage2 : List Stage2Result}
    {ltm : List (String × String)} {m : String} {pts revs : Nat}
    (h : dget (roundStats stage2 ltm) m = some (pts, revs)) (hr : 0 < revs) :
    ∃ r ∈ stage2, ∃ lab ∈ parse_ranking_from_text r.2, dget ltm lab = some m := by
  unfold roundStats at h
  rcases roundStatsAux_source h hr with ⟨r, hrm, p, hp⟩ | ⟨pr, hpr, hpos⟩
  · obtain ⟨lab, hlab, hd⟩ := mem_calc_points hp
    exact ⟨r, hrm, lab, hlab, hd⟩
  · exfalso
    have hz : pr = (0, 0) := roundStatsInitAux_values (by simp) (dget_mem hpr)
    rw [hz] at hpos
    simp at hpos

theorem roundStats_keys_nodup (stage2 : List Stage2Result)
    (ltm : List (String × String)) :
    ((roundStats stage2 ltm).map Prod.fst).Nodup := by
  unfold roundStats
  rw [keys_roundStatsAux]
  exact roundStatsInitAux_nodup _ _ (by simp)

/-- The effect of one `applyStat` step on the cleaned name it updates. -/
theorem dget_applyStat_self (sc : List (String × ℚ)) (m : String)
    (pts revs : Nat) (hrev : ¬revs = 0) :
    dget (applyStat sc (m, pts, revs)) (clean_model_name m) =
      some
        (match dget sc (clean_model_name m) with
         | none => (pts : ℚ) / (revs : ℚ)
         | some prev =>
           if prev = 0 then (pts : ℚ) / (revs : ℚ)
           else pyRound2 (prev * (1 - emaAlpha) + (pts : ℚ) / (revs : ℚ) * emaAlpha)) := by
  rw [applyStat, if_neg hrev]
  rcases hd : dget sc (clean_model_name m) with _ | prev
  · simp only [hd]
    exact dget_dset_self ..
  · simp only [hd]
    by_cases hp : prev = 0
    · rw [if_pos hp, if_pos hp]
      exact dget_dset_self ..
    · rw [if_neg hp, if_neg hp]
      exact dget_dset_self ..

/-! ## Grouping lemmas for the per-review award -/

theorem firstSeen_nodup (l : List String) : (firstSeen l).Nodup := by
  induction l with
  | nil => simp [firstSeen]
  | cons m rest ih =>
    rw [firstSeen]
    refine List.nodup_cons.mpr ⟨?_, ih.filter _⟩
    intro hmem
    have := List.of_mem_filter hmem
    simp at this

theorem mem_firstSeen {m : String} {l : List String} :
    m ∈ firstSeen l ↔ m ∈ l := by
  induction l with
  | nil => simp [firstSeen]
  | cons a rest ih =>
    rw [firstSeen]
    by_cases h : m = a
    · subst h; simp
    · simp only [List.mem_cons, List.mem_filter]
      constructor
      · rintro (h' | ⟨h', -⟩)
        · exact Or.inl h'
        · exact Or.inr (ih.mp h')
      · rintro (h' | h')
        · exact Or.inl h'
        · exact Or.inr ⟨ih.mpr h', by simpa using h⟩

theorem dget_map_fun {α : Type} {g : String → α} {l : List String} {k : String} :
    dget (l.map fun m => (m, g m)) k = if k ∈ l then some (g k) else none := by
  induction l with
  | nil => simp [dget]
  | cons m rest ih =>
    by_cases h : m = k
    · subst h; simp [dget, ih]
    · simp [dget, h, ih, Ne.symm h]

theorem assoc_ext {α : Type} {d1 d2 : List (String × α)}
    (hk : d1.map Prod.fst = d2.map Prod.fst)
    (hnd : (d1.map Prod.fst).Nodup)
    (hd : ∀ m, dget d1 m = dget d2 m) : d1 = d2 := by
  induction d1 generalizing d2 with
  | nil =>
    cases d2 with
    | nil => rfl
    | cons q rest2 => simp at hk
  | cons p rest ih =>
    cases d2 with
    | nil => simp at hk
    | cons q rest2 =>
      obtain ⟨k1, v1⟩ := p
      obtain ⟨k2, v2⟩ := q
      simp only [List.map_cons, List.cons.injEq] at hk
      obtain ⟨hk12, hkrest⟩ := hk
      subst hk12
      simp only [List.map_cons, List.nodup_cons] at hnd
      have hv : v1 = v2 := by
        have h1 := hd k1
        rw [dget, if_pos rfl, dget, if_pos rfl] at h1
        injection h1
      subst hv
      refine congrArg _ (ih hkrest hnd.2 ?_)
      intro m
      by_cases hm : m = k1
      · subst hm
        have h1 : dget rest m = none := by
          rw [dget_eq_none_iff]
          intro p hp e
          exact hnd.1 (e ▸ List.mem_map_of_mem Prod.fst hp)
        have h2 : dget rest2 m = none := by
          rw [dget_eq_none_iff]
          intro p hp e
          have : p.1 ∈ rest2.map Prod.fst := List.mem_map_of_mem Prod.fst hp
          rw [← hkrest] at this
          exact hnd.1 (e ▸ this)
        rw [h1, h2]
      · have h1 := hd m
        rwa [dget, if_neg fun e => hm e.symm, dget, if_neg fun e => hm e.symm] at h1

theorem posFrom_eq_nil_iff {ltm : List (String × String)} {m : String}
    {labels : List String} {i : Nat} :
    posFrom ltm m labels i = [] ↔ ∀ l ∈ labels, mapOk ltm l ≠ some m := by
  induction labels generalizing i with
  | nil => simp [posFrom]
  | cons l rest ih =>
    rw [posFrom]
    by_cases h : mapOk ltm l = some m
    · simp [h]
    · simp [h, ih]

theorem dget_modelRanksAux (ltm : List (String × String)) (labels : List String)
    (i : Nat) (acc : List (String × List Nat)) (m : String) :
    dget (modelRanksAux ltm labels i acc) m =
      match dget acc m with
      | some xs => some (xs ++ posFrom ltm m labels i)
      | none =>
        if posFrom ltm m labels i = [] then none
        else some (posFrom ltm m labels i) := by
  induction labels generalizing i acc with
  | nil =>
    rw [modelRanksAux]
    rcases h : dget acc m with _ | xs <;> simp [h, posFrom]
  | cons l rest ih =>
    rw [modelRanksAux]
    rcases hml : dget ltm l with _ | m0
    · have hmo : mapOk ltm l = none := by simp [mapOk, hml]
      simp only [hml]
      rw [ih]
      simp [posFrom, hmo]
    · simp only [hml]
      by_cases he : m0 = ""
      · rw [if_pos he]
        have hmo : mapOk ltm l = none := by simp [mapOk, hml, he]
        rw [ih]
        simp [posFrom, hmo]
      · rw [if_neg he]
        have hmo : mapOk ltm l = some m0 := by simp [mapOk, hml, he]
        rw [ih]
        by_cases hm : m = m0
        · subst hm
          rw [dget_dset_self]
          rcases hx : dget acc m with _ | xs
          · simp [posFrom, hmo, hx]
          · simp [posFrom, hmo, hx]
        · rw [dget_dset_ne _ _ hm]
          have hne : ¬mapOk ltm l = some m := by
            rw [hmo]
            intro e
            injection e with e'
            exact hm e'.symm
          rcases hx : dget acc m with _ | xs <;> simp [posFrom, hmo, hx, hne, Ne.symm hm]

theorem keys_modelRanksAux_spec (ltm : List (String × String))
    (labels : List String) (i : Nat) (acc : List (String × List Nat)) :
    (modelRanksAux ltm labels i acc).map Prod.fst =
      acc.map Prod.fst ++
        (firstSeen (labels.filterMap (mapOk ltm))).filter
          fun m => (dget acc m).isNone := by
  induction labels generalizing i acc with
  | nil => simp [modelRanksAux, firstSeen]
  | cons l rest ih =>
    rw [modelRanksAux]
    rcases hml : dget ltm l with _ | m0
    · have hmo : mapOk ltm l = none := by simp [mapOk, hml]
      simp only [hml]
      rw [ih]
      simp [List.filterMap_cons, hmo]
    · simp only [hml]
      by_cases he : m0 = ""
      · rw [if_pos he]
        have hmo : mapOk ltm l = none := by simp [mapOk, hml, he]
        rw [ih]
        simp [List.filterMap_cons, hmo]
      · rw [if_neg he]
        have hmo : mapOk ltm l = some m0 := by simp [mapOk, hml, he]
        rw [ih]
        rw [List.filterMap_cons, hmo]
        rw [show firstSeen (m0 :: rest.filterMap (mapOk ltm)) =
              m0 :: (firstSeen (rest.filterMap (mapOk ltm))).filter
                (fun x => x ≠ m0) from rfl]
        rcases hx : dget acc m0 with _ | xs
        · rw [keys_dset_absent hx]
          rw [List.filter_cons_of_pos (by simp [hx])]
          rw [List.filter_filter]
          rw [List.append_assoc]
          refine congrArg _ (congrArg _ (List.filter_congr ?_))
          intro x hx'
          by_cases hxm : x = m0
          · subst hxm
            simp [dget_dset_self]
          · simp [dget_dset_ne _ _ hxm, hxm]
        · rw [keys_dset_present hx]
          rw [List.filter_cons_of_neg (by simp [hx])]
          rw [List.filter_filter]
          refine congrArg _ (List.filter_congr ?_)
          intro x hx'
          by_cases hxm : x = m0
          · subst hxm
            simp [dget_dset_self, hx]
          · simp [dget_dset_ne _ _ hxm, hxm]

theorem map_fst_pair {α : Type} (g : String → α) (l : List String) :
    (l.map fun m => (m, g m)).map Prod.fst = l := by
  induction l with
  | nil => rfl
  | cons a rest ih => simp [ih]

theorem modelRanks_spec (ltm : List (String × String)) (labels : List String) :
    modelRanksAux ltm labels 0 [] =
      (firstSeen (labels.filterMap (mapOk ltm))).map fun m =>
        (m, posFrom ltm m labels 0) := by
  have hkeys : (modelRanksAux ltm labels 0 []).map Prod.fst =
      firstSeen (labels.filterMap (mapOk ltm)) := by
    rw [keys_modelRanksAux_spec]
    simp [dget]
  apply assoc_ext
  · rw [hkeys, map_fst_pair]
  · rw [hkeys]
    exact firstSeen_nodup _
  · intro m
    rw [dget_modelRanksAux, dget_map_fun]
    simp only [dget]
    by_cases hmem : m ∈ firstSeen (labels.filterMap (mapOk ltm))
    · rw [if_pos hmem]
      rw [if_neg]
      intro hnil
      rw [posFrom_eq_nil_iff] at hnil
      obtain ⟨l, hl, hml⟩ := List.mem_filterMap.mp (mem_firstSeen.mp hmem)
      exact hnil l hl hml
    · rw [if_neg hmem]
      rw [if_pos]
      rw [posFrom_eq_nil_iff]
      intro l hl hml
      exact hmem (mem_firstSeen.mpr (List.mem_filterMap.mpr ⟨l, hl, hml⟩))

theorem awardPoints_enumFrom (ms : List (String × ℚ)) (j : Nat) :
    awardPoints ms j =
      (ms.enumFrom j).filterMap fun p =>
        if rankingPoints p.1 > 0 then some (p.2.1, rankingPoints p.1)
        else none := by
  induction ms generalizing j with
  | nil => rfl
  | cons q rest ih =>
    obtain ⟨m, a⟩ := q
    rw [awardPoints, List.enumFrom_cons, List.filterMap_cons]
    by_cases hp : rankingPoints j > 0
    · rw [if_pos hp]
      simp only [hp, if_pos]
      rw [ih]
    · rw [if_neg hp]
      simp only [hp, if_neg]
      rw [ih]
      simp [hp]

/-! ## Split/segment lemmas for the rank parser -/

theorem matchLit_length {sep cs rest : List Char}
    (h : matchLit sep cs = some rest) : cs.length = sep.length + rest.length := by
  induction sep generalizing cs with
  | nil =>
    rw [matchLit] at h
    injection h with h'
    simp [h']
  | cons p ps ih =>
    cases cs with
    | nil => exact absurd h (by rw [matchLit]; simp)
    | cons c cs' =>
      rw [matchLit] at h
      by_cases hc : c = p
      · rw [if_pos hc] at h
        simp [ih h, Nat.add_right_comm]
      · rw [if_neg hc] at h
        exact absurd h (by simp)

theorem splitOnSeq_ne_nil (sep : List Char) (fuel : Nat) (cs : List Char) :
    splitOnSeq sep fuel cs ≠ [] := by
  match fuel, cs with
  | 0, cs => simp [splitOnSeq]
  | _ + 1, [] =>
    rw [splitOnSeq]
    rcases matchLit sep [] with _ | r <;> simp
  | fuel + 1, c :: cs =>
    rw [splitOnSeq]
    rcases matchLit sep (c :: cs) with _ | r
    · rcases h : splitOnSeq sep fuel cs with _ | ⟨p, ps⟩ <;> simp
    · simp

theorem upToNext_fuel (sep : List Char) :
    ∀ {f1 f2 : Nat} {cs : List Char}, cs.length ≤ f1 → cs.length ≤ f2 →
      upToNext sep f1 cs = upToNext sep f2 cs := by
  intro f1 f2 cs
  induction cs generalizing f1 f2 with
  | nil =>
    intro h1 h2
    cases f1 <;> cases f2 <;> rfl
  | cons c cs' ih =>
    intro h1 h2
    cases f1 with
    | zero => exact absurd h1 (by simp)
    | succ f1' =>
      cases f2 with
      | zero => exact absurd h2 (by simp)
      | succ f2' =>
        rw [upToNext, upToNext]
        rcases matchLit sep (c :: cs') with _ | r
        · rw [ih (Nat.le_of_succ_le_succ h1) (Nat.le_of_succ_le_succ h2)]
        · rfl

theorem splitOnSeq_headD (sep : List Char) (hsep : sep ≠ []) :
    ∀ (fuel : Nat) (cs : List Char), cs.length ≤ fuel →
      (splitOnSeq sep fuel cs).headD [] = upToNext sep fuel cs := by
  intro fuel cs
  induction cs generalizing fuel with
  | nil =>
    intro h
    cases fuel with
    | zero => rfl
    | succ f =>
      rw [splitOnSeq, upToNext]
      rcases h' : matchLit sep [] with _ | r
      · simp
      · cases sep with
        | nil => exact absurd rfl hsep
        | cons p ps => rw [matchLit] at h'; exact absurd h' (by simp)
  | cons c cs' ih =>
    intro h
    cases fuel with
    | zero => exact absurd h (by simp)
    | succ f =>
      rw [splitOnSeq, upToNext]
      rcases h' : matchLit sep (c :: cs') with _ | r
      · rcases hs : splitOnSeq sep f cs' with _ | ⟨p, ps⟩
        · exact absurd hs (splitOnSeq_ne_nil sep f cs')
        · have := ih f (Nat.le_of_succ_le_succ h)
          rw [hs] at this
          simp only [List.headD_cons] at this ⊢
          rw [this]
      · rfl

theorem splitOnSeq_second (sep : List Char) (hsep : sep ≠ []) :
    ∀ (fuel : Nat) (cs : List Char), cs.length ≤ fuel →
      containsSeq sep cs = true →
      ((splitOnSeq sep fuel cs).drop 1).headD [] =
        upToNext sep (afterFirst sep fuel cs).length (afterFirst sep fuel cs) := by
  intro fuel cs
  induction cs generalizing fuel with
  | nil =>
    intro h hc
    rw [containsSeq] at hc
    cases sep with
    | nil => exact absurd rfl hsep
    | cons p ps => rw [matchLit] at hc; simp at hc
  | cons c cs' ih =>
    intro h hc
    cases fuel with
    | zero => exact absurd h (by simp)
    | succ f =>
      rw [splitOnSeq, afterFirst]
      rcases h' : matchLit sep (c :: cs') with _ | r
      · rcases hs : splitOnSeq sep f cs' with _ | ⟨p, ps⟩
        · exact absurd hs (splitOnSeq_ne_nil sep f cs')
        · rw [containsSeq, h'] at hc
          simp only [Option.isSome_none, Bool.false_or] at hc
          have := ih f (Nat.le_of_succ_le_succ h) hc
          rw [hs] at this
          simpa using this
      · simp only [List.drop_succ_cons, List.drop_zero]
        have hr : r.length ≤ f := by
          have hml := matchLit_length h'
          have hsl : 1 ≤ sep.length := by
            cases sep with
            | nil => exact absurd rfl hsep
            | cons p ps => simp
          simp only [List.length_cons] at hml h
          omega
        rw [splitOnSeq_headD sep hsep f r hr]
        exact upToNext_fuel sep hr le_rfl

/-- With the marker present, the parser's `split(marker)[1]` region is
exactly the segment between the first marker occurrence and the next one. -/
theorem splitSeq_second_eq_segBetween (sep : List Char) (hsep : sep ≠ [])
    (cs : List Char) (hc : containsSeq sep cs = true) :
    ((splitSeq sep cs).drop 1).headD [] = segBetween sep cs :=
  splitOnSeq_second sep hsep cs.length cs le_rfl hc

/-! ## Canonicalization lemmas -/

theorem matchCI_isSuffix {pat cs r : List Char} (h : matchCI pat cs = some r) :
    r <:+ cs := by
  induction pat generalizing cs with
  | nil =>
    rw [matchCI] at h
    injection h with h'
    exact h' ▸ List.suffix_refl r
  | cons p ps ih =>
    cases cs with
    | nil => exact absurd h (by rw [matchCI]; simp)
    | cons c cs' =>
      rw [matchCI] at h
      by_cases hc : lcase c = p
      · rw [if_pos hc] at h
        exact (ih h).trans (List.suffix_cons c cs')
      · rw [if_neg hc] at h
        exact absurd h (by simp)

theorem ci_head {pat cs : List Char} (h : (matchCI pat cs).isSome) :
    containsSeqCI pat cs = true := by
  cases cs with
  | nil => simpa [containsSeqCI] using h
  | cons c cs' => simp [containsSeqCI, h]

theorem ci_cons {pat cs : List Char} (c : Char)
    (h : containsSeqCI pat cs = true) : containsSeqCI pat (c :: cs) = true := by
  simp [containsSeqCI, h]

theorem ci_append_left {pat cs : List Char} (t : List Char)
    (h : containsSeqCI pat cs = true) : containsSeqCI pat (t ++ cs) = true := by
  induction t with
  | nil => exact h
  | cons c t' ih => exact ci_cons c ih

theorem ci_suffix_mono {pat cs' cs : List Char} (hs : cs' <:+ cs)
    (h : containsSeqCI pat cs' = true) : containsSeqCI pat cs = true := by
  obtain ⟨t, ht⟩ := hs
  exact ht ▸ ci_append_left t h

theorem matchCI_prefix_pat {p1 p2 cs r : List Char}
    (h : matchCI (p1 ++ p2) cs = some r) : (matchCI p1 cs).isSome := by
  induction p1 generalizing cs with
  | nil => simp [matchCI]
  | cons p ps ih =>
    cases cs with
    | nil => exact absurd h (by rw [List.cons_append, matchCI]; simp)
    | cons c cs' =>
      rw [List.cons_append, matchCI] at h
      by_cases hc : lcase c = p
      · rw [if_pos hc] at h
        simpa [matchCI, hc] using ih h
      · rw [if_neg hc] at h
        exact absurd h (by simp)

theorem matchCI_tail {p : Char} {ps cs r : List Char}
    (h : matchCI (p :: ps) cs = some r) :
    ∃ c cs', cs = c :: cs' ∧ matchCI ps cs' = some r := by
  cases cs with
  | nil => exact absurd h (by rw [matchCI]; simp)
  | cons c cs' =>
    rw [matchCI] at h
    by_cases hc : lcase c = p
    · rw [if_pos hc] at h
      exact ⟨c, cs', rfl, h⟩
    · rw [if_neg hc] at h
      exact absurd h (by simp)

theorem dropWhile_suffix (p : Char → Bool) (l : List Char) :
    l.dropWhile p <:+ l := by
  induction l with
  | nil => exact List.suffix_refl _
  | cons c cs ih =>
    by_cases hc : p c
    · rw [List.dropWhile_cons_of_pos hc]
      exact ih.trans (List.suffix_cons c cs)
    · rw [List.dropWhile_cons_of_neg hc]

theorem matchExtParen_thinking {cs : List Char}
    (h : (matchExtParen cs).isSome) :
    containsSeqCI "thinking".data cs = true := by
  rw [matchExtParen] at h
  rcases h1 : matchCI "(ext)".data (cs.dropWhile isWs) with _ | r1
  · rw [h1] at h; simp at h
  · rw [h1] at h
    have hsub : containsSeqCI "thinking".data (r1.dropWhile isWs) = true := ci_head h
    exact ci_suffix_mono
      (((dropWhile_suffix isWs r1).trans (matchCI_isSuffix h1)).trans
        (dropWhile_suffix isWs cs))
      hsub

theorem matchExtBracket_thinking {cs : List Char}
    (h : (matchExtBracket cs).isSome) :
    containsSeqCI "thinking".data cs = true := by
  rw [matchExtBracket] at h
  rcases h1 : matchCI "[ext.".data (cs.dropWhile isWs) with _ | r1
  · rw [h1] at h; simp at h
  · simp only [h1] at h
    rcases h2 : matchCI "thinking]".data (r1.dropWhile isWs) with _ | r2
    · rw [h2] at h; simp at h
    · have hpre : (matchCI "thinking".data (r1.dropWhile isWs)).isSome :=
        matchCI_prefix_pat
          (show matchCI ("thinking".data ++ "]".data) (r1.dropWhile isWs) =
            some r2 from h2)
      exact ci_suffix_mono
        (((dropWhile_suffix isWs r1).trans (matchCI_isSuffix h1)).trans
          (dropWhile_suffix isWs cs))
        (ci_head hpre)

theorem matchBracketThinking_thinking {cs : List Char}
    (h : (matchBracketThinking cs).isSome) :
    containsSeqCI "thinking".data cs = true := by
  rw [matchBracketThinking] at h
  rcases h1 : matchCI "[thinking]".data (cs.dropWhile isWs) with _ | r1
  · rw [h1] at h; simp at h
  · obtain ⟨c, cs', he, h2⟩ := matchCI_tail h1
    have hpre : (matchCI "thinking".data cs').isSome :=
      matchCI_prefix_pat
        (show matchCI ("thinking".data ++ "]".data) cs' = some r1 from h2)
    have hcs' : cs' <:+ cs := by
      have h3 : cs' <:+ c :: cs' := List.suffix_cons c cs'
      have h4 : c :: cs' <:+ cs := he ▸ dropWhile_suffix isWs cs
      exact h3.trans h4
    exact ci_suffix_mono hcs' (ci_head hpre)

theorem matchParenThinking_thinking {cs : List Char}
    (h : (matchParenThinking cs).isSome) :
    containsSeqCI "thinking".data cs = true := by
  rw [matchParenThinking] at h
  rcases h1 : matchCI "(thinking)".data (cs.dropWhile isWs) with _ | r1
  · rw [h1] at h; simp at h
  · obtain ⟨c, cs', he, h2⟩ := matchCI_tail h1
    have hpre : (matchCI "thinking".data cs').isSome :=
      matchCI_prefix_pat
        (show matchCI ("thinking".data ++ ")".data) cs' = some r1 from h2)
    have hcs' : cs' <:+ cs := by
      have h3 : cs' <:+ c :: cs' := List.suffix_cons c cs'
      have h4 : c :: cs' <:+ cs := he ▸ dropWhile_suffix isWs cs
      exact h3.trans h4
    exact ci_suffix_mono hcs' (ci_head hpre)

theorem substAux_id (m : List Char → Option (List Char)) (rep : List Char)
    (fuel : Nat) (cs : List Char)
    (h : ∀ c cs', (c :: cs') <:+ cs → m (c :: cs') = none) :
    substAux m rep fuel cs = cs := by
  induction fuel generalizing cs with
  | zero => rfl
  | succ f ih =>
    cases cs with
    | nil => rfl
    | cons c cs' =>
      rw [substAux, h c cs' (List.suffix_refl _)]
      rw [ih cs' fun c₀ cs₀ hs => h c₀ cs₀ (hs.trans (List.suffix_cons c cs'))]

theorem subst_id (m : List Char → Option (List Char)) (rep : List Char)
    (cs : List Char)
    (h : ∀ c cs', (c :: cs') <:+ cs → m (c :: cs') = none) :
    subst m rep cs = cs :=
  substAux_id m rep cs.length cs h

theorem matchCI_of_map_lcase {u pat : List Char} (h : u.map lcase = pat)
    (v : List Char) : matchCI pat (u ++ v) = some v := by
  induction u generalizing pat with
  | nil => rw [← h]; rfl
  | cons c u' ih =>
    rw [List.map_cons] at h
    rw [← h, List.cons_append, matchCI, if_pos rfl]
    exact ih rfl

theorem matchCI_extend {pat x r : List Char} (u : List Char)
    (h : matchCI pat x = some r) : (matchCI pat (x ++ u)).isSome := by
  induction pat generalizing x with
  | nil => simp [matchCI]
  | cons p ps ih =>
    cases x with
    | nil => exact absurd h (by rw [matchCI]; simp)
    | cons c x' =>
      rw [matchCI] at h
      by_cases hc : lcase c = p
      · rw [if_pos hc] at h
        rw [List.cons_append, matchCI, if_pos hc]
        exact ih h
      · rw [if_neg hc] at h
        exact absurd h (by simp)

theorem ci_append_right {pat t : List Char} (u : List Char)
    (h : containsSeqCI pat t = true) : containsSeqCI pat (t ++ u) = true := by
  induction t with
  | nil =>
    rw [containsSeqCI] at h
    rcases hm : matchCI pat [] with _ | r
    · rw [hm] at h; simp at h
    · rw [List.nil_append]
      cases u with
      | nil => rw [containsSeqCI, hm]; simp
      | cons c u' =>
        have := matchCI_extend (c :: u') hm
        rw [List.nil_append] at this
        exact ci_head this
  | cons c t' ih =>
    rw [containsSeqCI] at h
    rw [List.cons_append, containsSeqCI]
    rcases hm : matchCI pat (c :: t') with _ | r
    · rw [hm] at h
      simp only [Option.isSome_none, Bool.false_or] at h
      simp [ih h]
    · have := matchCI_extend u hm
      rw [List.cons_append] at this
      simp [this]

theorem takeRev_contains {cs : List Char}
    (hcond : (cs.reverse.take 8).map lcase = "thinking".data.reverse) :
    containsSeqCI "thinking".data cs = true := by
  have hdec : cs = (cs.reverse.drop 8).reverse ++ (cs.reverse.take 8).reverse := by
    rw [← List.reverse_append, List.take_append_drop, List.reverse_reverse]
  have hmap : ((cs.reverse.take 8).reverse).map lcase = "thinking".data := by
    rw [List.map_reverse, hcond, List.reverse_reverse]
  have hmatch := matchCI_of_map_lcase hmap []
  rw [List.append_nil] at hmatch
  rw [hdec]
  exact ci_append_left _ (ci_head (by simp [hmatch]))

theorem stripTrailingThinking_id {cs : List Char}
    (h : containsSeqCI "thinking".data cs = false) :
    stripTrailingThinking cs = cs := by
  rw [stripTrailingThinking]
  split
  next heq =>
    have hcond : ¬(cs.dropLast.reverse.take 8).map lcase =
        "thinking".data.reverse := by
      intro hc
      have h1 := takeRev_contains hc
      have hne : cs ≠ [] := by
        intro e
        rw [e] at heq
        simp at heq
      have h2 : containsSeqCI "thinking".data cs = true := by
        rw [← List.dropLast_append_getLast hne]
        exact ci_append_right _ h1
      rw [h2] at h
      exact absurd h (by simp)
    rw [if_neg hcond]
  next =>
    have hcond : ¬(cs.reverse.take 8).map lcase = "thinking".data.reverse := by
      intro hc
      have h2 := takeRev_contains hc
      rw [h2] at h
      exact absurd h (by simp)
    rw [if_neg hcond]

theorem dropWhile_headNot (p : Char → Bool) (l : List Char) {c : Char}
    (h : (l.dropWhile p).head? = some c) : p c = false := by
  induction l with
  | nil => simp at h
  | cons a l' ih =>
    by_cases ha : p a
    · rw [List.dropWhile_cons_of_pos ha] at h
      exact ih h
    · rw [List.dropWhile_cons_of_neg ha] at h
      simp only [List.head?_cons, Option.some.injEq] at h
      rw [← h]
      exact Bool.eq_false_iff.mpr ha

theorem dropWhile_id_of_headNot (p : Char → Bool) (l : List Char)
    (h : ∀ c, l.head? = some c → p c = false) : l.dropWhile p = l := by
  cases l with
  | nil => rfl
  | cons c cs =>
    rw [List.dropWhile_cons_of_neg]
    rw [h c rfl]
    simp

theorem suffix_getLast? {l1 l2 : List Char} (hs : l1 <:+ l2) (hne : l1 ≠ []) :
    l1.getLast? = l2.getLast? := by
  obtain ⟨t, ht⟩ := hs
  rw [← ht]
  exact (List.getLast?_append_of_ne_nil t hne).symm

theorem stripWs_idem (l : List Char) : stripWs (stripWs l) = stripWs l := by
  have hz : ∀ u : List Char,
      (u.dropWhile isWs).dropWhile isWs = u.dropWhile isWs := fun u =>
    dropWhile_id_of_headNot isWs _ fun c hc => dropWhile_headNot isWs u hc
  have hy : (stripWs l).dropWhile isWs = stripWs l := by
    apply dropWhile_id_of_headNot
    intro c hc
    rw [stripWs, List.head?_reverse] at hc
    have hzne : (l.dropWhile isWs).reverse.dropWhile isWs ≠ [] := by
      intro e
      rw [e] at hc
      simp at hc
    rw [suffix_getLast? (dropWhile_suffix isWs _) hzne,
      List.getLast?_reverse] at hc
    exact dropWhile_headNot isWs l hc
  rw [stripWs, hy]
  show ((stripWs l).reverse.dropWhile isWs).reverse = stripWs l
  rw [stripWs, List.reverse_reverse, hz, ← stripWs]

/-! ## Label-assignment lemmas -/

theorem dset_dset_same {α : Type} (d : List (String × α)) (k : String)
    (v w : α) : dset (dset d k v) k w = dset d k w := by
  induction d with
  | nil => simp [dset]
  | cons p rest ih =>
    obtain ⟨k', v'⟩ := p
    by_cases h : k' = k <;> simp [dset, h, ih]

theorem dset_append_of_absent {α : Type} {d : List (String × α)} {k : String}
    (h : dget d k = none) (v : α) : dset d k v = d ++ [(k, v)] := by
  induction d with
  | nil => simp [dset]
  | cons p rest ih =>
    obtain ⟨k', v'⟩ := p
    rw [dget] at h
    by_cases h' : k' = k
    · rw [if_pos h'] at h
      exact absurd h (by simp)
    · rw [if_neg h'] at h
      simp [dset, h', ih h]

theorem dset_map_fun {α : Type} {fs : List String} (hnd : fs.Nodup)
    {m : String} (hm : m ∈ fs) (g : String → α) (v : α) :
    dset (fs.map fun x => (x, g x)) m v =
      fs.map fun x => (x, if x = m then v else g x) := by
  induction fs with
  | nil => simp at hm
  | cons a fs' ih =>
    simp only [List.nodup_cons] at hnd
    by_cases ha : a = m
    · subst ha
      simp only [List.map_cons, dset, if_pos rfl, if_pos rfl]
      refine congrArg _ (List.map_congr_left ?_).symm
      intro x hx
      rw [if_neg]
      intro e
      exact hnd.1 (e ▸ hx)
    · rcases List.mem_cons.mp hm with he | hm'
      · exact absurd he.symm ha
      · simp only [List.map_cons, dset, if_neg ha, if_neg ha, ih hnd.2 hm']

theorem firstSeen_append (t u : List String) :
    firstSeen (t ++ u) =
      firstSeen t ++ (firstSeen u).filter fun x => decide (x ∉ t) := by
  induction t with
  | nil => simp [firstSeen]
  | cons a t' ih =>
    rw [List.cons_append, firstSeen, ih, firstSeen, List.filter_append,
      List.cons_append, List.filter_filter]
    congr 2
    refine List.filter_congr ?_
    intro x hx
    by_cases h1 : x ∈ t' <;> by_cases h2 : x = a <;> simp [h1, h2]

theorem firstSeen_append_singleton (pre : List String) (m : String) :
    firstSeen (pre ++ [m]) =
      if m ∈ pre then firstSeen pre else firstSeen pre ++ [m] := by
  rw [firstSeen_append]
  by_cases h : m ∈ pre <;> simp [firstSeen, h]

theorem indexOf_append_left {m : String} {l1 : List String} (l2 : List String)
    (h : m ∈ l1) : indexOfStr m (l1 ++ l2) = indexOfStr m l1 := by
  induction l1 with
  | nil => simp at h
  | cons a l1' ih =>
    by_cases ha : a = m
    · simp [indexOfStr, ha]
    · rcases List.mem_cons.mp h with he | hm'
      · exact absurd he.symm ha
      · simp [indexOfStr, ha, ih hm']

theorem dget_countsOf (pre : List String) (m : String) :
    dget (countsOf pre) m = if m ∈ pre then some (pre.count m) else none := by
  rw [countsOf, dget_map_fun]
  by_cases h : m ∈ pre <;> simp [mem_firstSeen, h]

theorem countsOf_append_mem {pre : List String} {m : String} (h : m ∈ pre) :
    dset (countsOf pre) m (pre.count m + 1) = countsOf (pre ++ [m]) := by
  rw [countsOf, countsOf, firstSeen_append_singleton, if_pos h,
    dset_map_fun (firstSeen_nodup pre) (mem_firstSeen.mpr h)]
  refine List.map_congr_left ?_
  intro x hx
  by_cases hx' : x = m
  · subst hx'
    simp [List.count_append]
  · simp [List.count_append, hx', List.count_singleton', Ne.symm hx']

theorem countsOf_append_not_mem {pre : List String} {m : String} (h : m ∉ pre) :
    dset (dset (countsOf pre) m 0) m 1 = countsOf (pre ++ [m]) := by
  rw [dset_dset_same]
  have habs : dget (countsOf pre) m = none := by
    rw [dget_countsOf, if_neg h]
  rw [dset_append_of_absent habs, countsOf, countsOf,
    firstSeen_append_singleton, if_neg h, List.map_append]
  refine congrArg₂ _ (List.map_congr_left ?_) ?_
  · intro x hx
    have hx' : x ≠ m := by
      intro e
      exact h (e ▸ mem_firstSeen.mp hx)
    simp [List.count_append, List.count_singleton', hx']
  · simp [List.count_append, List.count_eq_zero_of_not_mem h]

theorem chairAux_spec (rest : List Stage1Result) :
    ∀ preS1 : List Stage1Result,
      (chairAux rest (firstSeen (preS1.map Prod.fst))
          (countsOf (preS1.map Prod.fst))).2.2 =
        (rest.enumFrom (preS1.map Prod.fst).length).map fun p =>
          String.singleton (Char.ofNat (65 +
            indexOfStr p.2.1
              (firstSeen (preS1.map Prod.fst ++ rest.map Prod.fst)))) ++
          toString
            (((preS1.map Prod.fst ++ rest.map Prod.fst).take (p.1 + 1)).count
              p.2.1) := by
  induction rest with
  | nil =>
    intro preS1
    simp [chairAux]
  | cons r rest' ih =>
    intro preS1
    rw [chairAux]
    simp only []
    have hfst : (r :: rest').map Prod.fst = r.1 :: rest'.map Prod.fst :=
      List.map_cons ..
    have hassoc : List.map Prod.fst preS1 ++ [r.1] ++ List.map Prod.fst rest' =
        List.map Prod.fst preS1 ++ (r :: rest').map Prod.fst := by
      simp
    have hpre' : (preS1 ++ [r]).map Prod.fst = preS1.map Prod.fst ++ [r.1] := by
      simp
    have henum : (r :: rest').enumFrom (preS1.map Prod.fst).length =
        ((preS1.map Prod.fst).length, r) ::
          rest'.enumFrom ((preS1.map Prod.fst).length + 1) := rfl
    have hidx : indexOfStr r.1
        (firstSeen (preS1.map Prod.fst ++ (r :: rest').map Prod.fst)) =
        indexOfStr r.1 (firstSeen (preS1.map Prod.fst ++ [r.1])) := by
      rw [← hassoc, firstSeen_append,
        indexOf_append_left _ (mem_firstSeen.mpr (by simp))]
    have htake : (preS1.map Prod.fst ++ (r :: rest').map Prod.fst).take
        ((preS1.map Prod.fst).length + 1) =
        preS1.map Prod.fst ++ [r.1] := by
      rw [hfst, List.take_append_eq_append_take,
        List.take_of_length_le (by omega)]
      congr 1
      rw [show (preS1.map Prod.fst).length + 1 - (preS1.map Prod.fst).length = 1
        by omega]
      rfl
    by_cases hm : r.1 ∈ preS1.map Prod.fst
    · have hdhas : dhas (countsOf (preS1.map Prod.fst)) r.1 = true := by
        rw [dhas, dget_countsOf, if_pos hm]
        rfl
      rw [if_pos hdhas, if_pos hdhas]
      have hget : dget (countsOf (preS1.map Prod.fst)) r.1 =
          some ((preS1.map Prod.fst).count r.1) := by
        rw [dget_countsOf, if_pos hm]
      rw [hget]
      have horder : firstSeen (preS1.map Prod.fst) =
          firstSeen (preS1.map Prod.fst ++ [r.1]) := by
        rw [firstSeen_append_singleton, if_pos hm]
      have hcounts : dset (countsOf (preS1.map Prod.fst)) r.1
          ((preS1.map Prod.fst).count r.1 + 1) =
          countsOf (preS1.map Prod.fst ++ [r.1]) := countsOf_append_mem hm
      have ihr := ih (preS1 ++ [r])
      rw [hpre', hassoc, hfst] at ihr
      rw [show (preS1.map Prod.fst ++ [r.1]).length =
            (preS1.map Prod.fst).length + 1 by simp] at ihr
      rw [Option.getD_some, horder, hcounts, hfst] at *
      rw [ihr, henum, List.map_cons]
      congr 1
      simp only [List.map_cons, hidx]
      rw [htake, List.count_append]
      simp
    · have hdhas : ¬dhas (countsOf (preS1.map Prod.fst)) r.1 = true := by
        rw [dhas, dget_countsOf, if_neg hm]
        simp
      rw [if_neg hdhas, if_neg hdhas]
      have hget : dget (dset (countsOf (preS1.map Prod.fst)) r.1 0) r.1 =
          some 0 := dget_dset_self ..
      rw [hget]
      have horder : firstSeen (preS1.map Prod.fst) ++ [r.1] =
          firstSeen (preS1.map Prod.fst ++ [r.1]) := by
        rw [firstSeen_append_singleton, if_neg hm]
      have hcounts : dset (dset (countsOf (preS1.map Prod.fst)) r.1 0) r.1
          (0 + 1) = countsOf (preS1.map Prod.fst ++ [r.1]) :=
        countsOf_append_not_mem hm
      have ihr := ih (preS1 ++ [r])
      rw [hpre', hassoc, hfst] at ihr
      rw [show (preS1.map Prod.fst ++ [r.1]).length =
            (preS1.map Prod.fst).length + 1 by simp] at ihr
      rw [Option.getD_some, horder, hcounts, hfst] at *
      rw [ihr, henum, List.map_cons]
      congr 1
      simp only [List.map_cons, hidx]
      rw [htake, List.count_append, List.count_eq_zero_of_not_mem hm]
      simp

/-- The chairman labels follow the spec's Anonymizer scheme exactly. -/
theorem chairLabels_spec (stage1 : List Stage1Result) :
    chairLabels stage1 = specChairLabels stage1 := by
  have h := chairAux_spec stage1 []
  simp only [List.map_nil, List.nil_append, List.length_nil] at h
  rw [chairLabels]
  rw [show firstSeen ([] : List String) = [] from rfl,
    show countsOf ([] : List String) = [] from rfl] at h
  rw [h, specChairLabels]
  rfl

theorem letter_inj {i j : Nat} (hi : i < 26) (hj : j < 26)
    (h : Char.ofNat (65 + i) = Char.ofNat (65 + j)) : i = j := by
  have hvi : (65 + i).isValidChar := Or.inl (by omega)
  have hvj : (65 + j).isValidChar := Or.inl (by omega)
  rw [Char.ofNat, dif_pos hvi, Char.ofNat, dif_pos hvj] at h
  rw [Char.ofNatAux, Char.ofNatAux] at h
  have h2 := congrArg (fun c => c.val.toBitVec.toNat) h
  simp only [BitVec.toNat_ofNatLt] at h2
  omega

theorem string_singleton_inj {c c' : Char}
    (h : String.singleton c = String.singleton c') : c = c' := by
  have hd := congrArg String.data h
  simpa [String.singleton] using hd

theorem string_append_left_cancel {s a b : String} (h : s ++ a = s ++ b) :
    a = b := by
  have hd := congrArg String.data h
  rw [String.data_append, String.data_append] at hd
  have h2 := List.append_cancel_left hd
  cases a
  cases b
  exact congrArg String.mk (by simpa using h2)

theorem stage2_labels_nodup {stage1 : List Stage1Result}
    (hlen : stage1.length ≤ 26) : (stage2_labels stage1).Nodup := by
  rw [stage2_labels]
  refine (List.nodup_range _).map_on ?_
  intro i hi j hj he
  exact letter_inj (lt_of_lt_of_le (List.mem_range.mp hi) hlen)
    (lt_of_lt_of_le (List.mem_range.mp hj) hlen) (string_singleton_inj he)

theorem dget_append_none {α : Type} {a : List (String × α)}
    (b : List (String × α)) {k : String} (h : dget a k = none) :
    dget (a ++ b) k = dget b k := by
  induction a with
  | nil => rfl
  | cons p rest ih =>
    obtain ⟨k', v⟩ := p
    rw [dget] at h
    by_cases h' : k' = k
    · rw [if_pos h'] at h
      exact absurd h (by simp)
    · rw [if_neg h'] at h
      rw [List.cons_append, dget, if_neg h']
      exact ih h

theorem zip_map_fst {α β : Type} (l1 : List α) (l2 : List β) :
    (l1.zip l2).map Prod.fst = l1.take l2.length := by
  induction l1 generalizing l2 with
  | nil => simp
  | cons a l1' ih =>
    cases l2 with
    | nil => simp
    | cons b l2' => simp [ih]

theorem stage2LtmAux_flat :
    ∀ (zs : List (String × Stage1Result)) (acc : List (String × String)),
      (∀ p ∈ zs, dget acc ("Response " ++ p.1) = none) →
      (zs.map fun p => "Response " ++ p.1).Nodup →
      stage2LtmAux acc zs = acc ++ zs.map fun p => ("Response " ++ p.1, p.2.1) := by
  intro zs
  induction zs with
  | nil =>
    intro acc _ _
    simp [stage2LtmAux]
  | cons q rest ih =>
    intro acc hacc hnd
    rw [stage2LtmAux]
    rw [dset_append_of_absent (hacc q (List.mem_cons_self q rest)) _]
    simp only [List.map_cons, List.nodup_cons] at hnd
    rw [ih (acc ++ [("Response " ++ q.1, q.2.1)]) ?_ hnd.2]
    · simp
    · intro p hp
      have h1 : dget acc ("Response " ++ p.1) = none :=
        hacc p (List.mem_cons_of_mem _ hp)
      have h2 : ¬"Response " ++ q.1 = "Response " ++ p.1 := by
        intro e
        exact hnd.1 (e ▸ List.mem_map_of_mem _ hp)
      rw [dget_append_none _ h1, dget, if_neg h2]
      rfl

theorem dget_flat_mem {zs : List (String × Stage1Result)}
    (hnd : (zs.map fun p => "Response " ++ p.1).Nodup)
    {p0 : String × Stage1Result} (hp : p0 ∈ zs) :
    dget (zs.map fun p => ("Response " ++ p.1, p.2.1)) ("Response " ++ p0.1) =
      some p0.2.1 := by
  induction zs with
  | nil => simp at hp
  | cons q rest ih =>
    simp only [List.map_cons, List.nodup_cons] at hnd
    rcases List.mem_cons.mp hp with he | hp'
    · subst he
      rw [List.map_cons, dget, if_pos rfl]
    · have hne : ¬"Response " ++ q.1 = "Response " ++ p0.1 := by
        intro e
        exact hnd.1 (e ▸ List.mem_map_of_mem _ hp')
      rw [List.map_cons, dget, if_neg hne]
      exact ih hnd.2 hp'

/-! ## Theorems -/

/-- **C5.** Self-votes are counted (reviewer noninterference): the
per-reviewer point award of `_calculate_points_for_review` is identical for
any two values of the reviewer identity argument — the reviewer parameter is
never consulted, so the reviewer's own response, when present among the
ranked labels, is scored exactly like any other and never excluded. -/
theorem C5_reviewer_noninterference (ranked_labels : List String)
    (r1 r2 : String) (ltm : List (String × String)) :
    calculate_points_for_review ranked_labels r1 ltm =
      calculate_points_for_review ranked_labels r2 ltm := rfl

/-- Counterexample to **C2** as stated: `clean_model_name` is not idempotent.
On `"A Thinking Thinking"` one application yields `"A Thinking"` (the
anchored `\s+Thinking$` pattern removes a single trailing suffix), and a
second application yields `"A"`. -/
theorem C2_counterexample :
    clean_model_name "A Thinking Thinking" = "A Thinking" ∧
      clean_model_name (clean_model_name "A Thinking Thinking") = "A" ∧
      clean_model_name (clean_model_name "A Thinking Thinking") ≠
        clean_model_name "A Thinking Thinking" := by decide

/-- Counterexample to **C6** as stated: with the marker repeated, the parser
keeps only the text between the first and second occurrence
(`split("FINAL RANKING:")[1]`), so a qualifying numbered label after the
second occurrence is dropped even though it occurs after the first one. -/
theorem C6_counterexample :
    parse_ranking_from_text
        "FINAL RANKING:\n1. Response A\nFINAL RANKING:\n1. Response B" =
      ["Response A"] ∧
    containsSeq "1. Response B".data
        (afterFirst marker
          "FINAL RANKING:\n1. Response A\nFINAL RANKING:\n1. Response B".data.length
          "FINAL RANKING:\n1. Response A\nFINAL RANKING:\n1. Response B".data) = true ∧
    "Response B" ∉
      parse_ranking_from_text
        "FINAL RANKING:\n1. Response A\nFINAL RANKING:\n1. Response B" := by decide

/-- Counterexample to **C7** as stated: in `stage2_collect_rankings` a model
occurring twice among the Stage1 results does *not* keep one stable letter
with 1-indexed occurrence numbers — the ranking-stage labels are plain
positional letters, so the two responses of model `"M"` are labeled
`"A"` and `"B"`, not `"A1"` and `"A2"`. -/
theorem C7_counterexample :
    stage2_labels [("M", "r1"), ("M", "r2")] = ["A", "B"] ∧
      stage2_labels [("M", "r1"), ("M", "r2")] ≠ ["A1", "A2"] ∧
      "A1" ∉ stage2_labels [("M", "r1"), ("M", "r2")] := by decide

set_option maxRecDepth 40000 in
/-- Counterexample to **C1** as stated: a reviewer that appears in the Stage2
results but not among the Stage1 results is rendered in the Stage3 chairman
prompt under its raw agent name (the `model_to_label.get(..., fallback)`
branch), so the prompt text contains the raw name. -/
theorem C1_counterexample :
    containsSeq "SecretReviewerX".data
      (build_chairman_prompt "q" [("M", "resp")] [("SecretReviewerX", "rank")] []).data
      = true := by decide

/-- **C10.** The per-reviewer award map has entries only for agents with
strictly positive points; an agent whose grouped (0-based) sorted position is
6 or beyond gets no entry at all; and a reviewer whose point map lacks an
agent contributes to neither that agent's point total nor its reviewer-count
divisor in the round statistics of `update_scores` — indistinguishable from
that reviewer not mentioning the agent. -/
theorem C10_positive_entries_only :
    (∀ (labels : List String) (r : String) (ltm : List (String × String))
        (m : String) (p : Nat),
        (m, p) ∈ calculate_points_for_review labels r ltm → 0 < p) ∧
    (∀ (labels : List String) (r : String) (ltm : List (String × String))
        (m : String),
        (∀ i, i < 6 →
          ((sortByAvg (modelAvgRanks (modelRanksAux ltm labels 0 []))).get? i).map
              Prod.fst ≠ some m) →
        dget (calculate_points_for_review labels r ltm) m = none) ∧
    (∀ (acc : List (String × Nat × Nat)) (pm : List (String × Nat)) (m : String),
        dget pm m = none → dget (addReview acc pm) m = dget acc m) := by
  refine ⟨?_, ?_, addReview_frame⟩
  · intro labels r ltm m p h
    exact mem_awardPoints_pos h
  · intro labels r ltm m hno
    rcases h : dget (calculate_points_for_review labels r ltm) m with _ | p
    · rfl
    · exfalso
      have hmem := dget_mem h
      have hpos : 0 < p := mem_awardPoints_pos hmem
      obtain ⟨i, hi, hr⟩ := mem_awardPoints hmem
      have : i < 6 := by
        apply rankingPoints_pos_lt
        have hr' : rankingPoints i = p := by simpa using hr
        rw [hr']
        exact hpos
      exact hno i this hi

/-- Witness for C10: seven agents ranked by one reviewer; the agent at sorted
position 6 (`"M7"`) gets no entry; and a review lacking an agent leaves that
agent's round statistics unchanged. -/
theorem C10_witness :
    (∀ i, i < 6 →
      ((sortByAvg (modelAvgRanks (modelRanksAux
            [("Response A", "M1"), ("Response B", "M2"), ("Response C", "M3"),
             ("Response D", "M4"), ("Response E", "M5"), ("Response F", "M6"),
             ("Response G", "M7")]
            ["Response A", "Response B", "Response C", "Response D",
             "Response E", "Response F", "Response G"] 0 []))).get? i).map
          Prod.fst ≠ some "M7") ∧
    dget
        (calculate_points_for_review
          ["Response A", "Response B", "Response C", "Response D",
           "Response E", "Response F", "Response G"] "Rev"
          [("Response A", "M1"), ("Response B", "M2"), ("Response C", "M3"),
           ("Response D", "M4"), ("Response E", "M5"), ("Response F", "M6"),
           ("Response G", "M7")]) "M7" = none ∧
    dget (addReview [("M1", 0, 0)] [("M2", 25)]) "M1" = some (0, 0) := by
  refine ⟨?_, ?_, ?_⟩
  · intro i hi
    interval_cases i <;> with_unfolding_all decide
  · exact C10_positive_entries_only.2.1 _ "Rev" _ "M7"
      (by intro i hi; interval_cases i <;> with_unfolding_all decide)
  · exact (C10_positive_entries_only.2.2 [("M1", 0, 0)] [("M2", 25)] "M1"
      (by decide)).trans (by decide)

/-- **C8.** Inactivity frame property: an agent whose stored score is at most
25 and that is not resolved from any label of any reviewer's parsed ranking
this turn keeps exactly its stored entry (same key, same value) across
`update_scores` — scores never decay from inactivity. -/
theorem C8_inactivity_frame (stage2 : List Stage2Result)
    (ltm : List (String × String)) (scores : List (String × ℚ))
    (name : String) (v : ℚ)
    (hv : dget scores name = some v) (hle : v ≤ 25)
    (hno : ∀ r ∈ stage2, ∀ lab ∈ parse_ranking_from_text r.2, ∀ m',
        dget ltm lab = some m' → clean_model_name m' ≠ name) :
    dget (update_scores stage2 ltm scores) name = some v := by
  unfold update_scores
  have hframe : ∀ st ∈ roundStats stage2 ltm,
      st.2.2 = 0 ∨ clean_model_name st.1 ≠ name := by
    intro st hst
    by_cases h0 : st.2.2 = 0
    · exact Or.inl h0
    · refine Or.inr ?_
      have hd : dget (roundStats stage2 ltm) st.1 = some st.2 :=
        dget_of_mem_nodup (roundStats_keys_nodup stage2 ltm) hst
      obtain ⟨r, hrm, lab, hlab, hdd⟩ :=
        roundStats_mentioned
          (show dget (roundStats stage2 ltm) st.1 = some (st.2.1, st.2.2) from hd)
          (Nat.pos_of_ne_zero h0)
      exact hno r hrm lab hlab st.1 hdd
  rw [applyStats_frame _ _ hframe, dget_legacyReset, hv]
  simp [not_lt.mpr hle]

/-- Witness for C8: the idle agent `"Idle"` (stored score 20) is not
mentioned by the single reviewer, so its entry survives the update
unchanged. -/
theorem C8_witness :
    dget
        (update_scores [("Rev", "FINAL RANKING:\n1. Response A")]
          [("Response A", "Active")] [("Idle", 20), ("Active", 10)]) "Idle" =
      some 20 := by
  refine C8_inactivity_frame _ _ _ _ 20 (by with_unfolding_all decide)
    (by norm_num) ?_
  intro r hr lab hlab m' hd
  rw [List.mem_singleton] at hr
  subst hr
  have hp : parse_ranking_from_text "FINAL RANKING:\n1. Response A" =
      ["Response A"] := by decide
  rw [hp, List.mem_singleton] at hlab
  subst hlab
  have : dget [("Response A", "Active")] "Response A" = some "Active" := by decide
  rw [this] at hd
  injection hd with hd'
  rw [← hd']
  decide

/-- **C3.** Per-agent score update rule of `update_scores`: for an agent with
at least one point-bearing mention this turn (`roundAvg` = points awarded
divided by the number of reviewers awarding any), an absent or zero stored
score becomes exactly `roundAvg`; a stored score `0 < s ≤ 25` becomes
`round₂(s·(1-0.2) + roundAvg·0.2)`; a legacy stored score `s > 25` is first
rewritten to 0 and then follows the fast-start path, becoming `roundAvg`. -/
theorem C3_score_update_rule (stage2 : List Stage2Result)
    (ltm : List (String × String)) (scores : List (String × ℚ))
    (m : String) (pts revs : Nat)
    (hst : dget (roundStats stage2 ltm) m = some (pts, revs))
    (hrev : 0 < revs)
    (hinj : ∀ p ∈ roundStats stage2 ltm, p.1 ≠ m →
        clean_model_name p.1 ≠ clean_model_name m) :
    (dget scores (clean_model_name m) = none →
        dget (update_scores stage2 ltm scores) (clean_model_name m) =
          some ((pts : ℚ) / (revs : ℚ))) ∧
    (dget scores (clean_model_name m) = some 0 →
        dget (update_scores stage2 ltm scores) (clean_model_name m) =
          some ((pts : ℚ) / (revs : ℚ))) ∧
    (∀ s : ℚ, dget scores (clean_model_name m) = some s → 0 < s → s ≤ 25 →
        dget (update_scores stage2 ltm scores) (clean_model_name m) =
          some (pyRound2 (s * (1 - emaAlpha) + (pts : ℚ) / (revs : ℚ) * emaAlpha))) ∧
    (∀ s : ℚ, dget scores (clean_model_name m) = some s → 25 < s →
        dget (update_scores stage2 ltm scores) (clean_model_name m) =
          some ((pts : ℚ) / (revs : ℚ))) := by
  have hnd := roundStats_keys_nodup stage2 ltm
  obtain ⟨pre, post, hdec, hpre, hpost⟩ := dget_decomp hnd hst
  have hmem_of : ∀ p : String × Nat × Nat,
      p ∈ pre ++ (m, pts, revs) :: post → p ∈ roundStats stage2 ltm := by
    intro p hp
    rw [hdec]
    exact hp
  have key :
      dget (update_scores stage2 ltm scores) (clean_model_name m) =
        some
          (match dget (legacyReset scores) (clean_model_name m) with
           | none => (pts : ℚ) / (revs : ℚ)
           | some prev =>
             if prev = 0 then (pts : ℚ) / (revs : ℚ)
             else pyRound2 (prev * (1 - emaAlpha) + (pts : ℚ) / (revs : ℚ) * emaAlpha)) := by
    unfold update_scores
    rw [hdec, applyStats_append, applyStats]
    rw [applyStats_frame]
    · rw [dget_applyStat_self _ _ _ _ (Nat.pos_iff_ne_zero.mp hrev)]
      rw [applyStats_frame]
      intro st hst'
      by_cases h0 : st.2.2 = 0
      · exact Or.inl h0
      · refine Or.inr ?_
        have hne : st.1 ≠ m := hpre st hst'
        exact hinj st (hmem_of st (List.mem_append_left _ hst')) hne
    · intro st hst'
      by_cases h0 : st.2.2 = 0
      · exact Or.inl h0
      · refine Or.inr ?_
        have hne : st.1 ≠ m := hpost st hst'
        exact hinj st
          (hmem_of st (List.mem_append_right _ (List.mem_cons_of_mem _ hst'))) hne
  refine ⟨?_, ?_, ?_, ?_⟩
  · intro hnone
    rw [key, dget_legacyReset, hnone]
    rfl
  · intro hzero
    rw [key, dget_legacyReset, hzero]
    norm_num
  · intro s hs h0 h25
    rw [key, dget_legacyReset, hs]
    have : ¬25 < s := not_lt.mpr h25
    simp only [Option.map_some', this, if_false, ne_eq]
    rw [if_neg (by exact ne_of_gt h0)]
  · intro s hs h25
    rw [key, dget_legacyReset, hs]
    simp only [Option.map_some', if_pos h25]
    norm_num

/-- Witness for C3: one reviewer awards 25 points to `"Model A"` whose stored
score is 10; the EMA update yields `round₂(10·0.8 + 25·0.2) = 13`, matching
the spec's worked example. -/
theorem C3_witness :
    dget
        (update_scores [("Model B", "FINAL RANKING:\n1. Response A")]
          [("Response A", "Model A")] [("Model A", 10)]) "Model A" =
      some 13 := by
  have h :=
    (C3_score_update_rule [("Model B", "FINAL RANKING:\n1. Response A")]
        [("Response A", "Model A")] [("Model A", 10)] "Model A" 25 1
        (by with_unfolding_all decide) (by decide)
        (by
          intro p hp hne
          have hall : ∀ q ∈ roundStats [("Model B", "FINAL RANKING:\n1. Response A")]
              [("Response A", "Model A")], q = ("Model A", 25, 1) := by
            with_unfolding_all decide
          rw [hall p hp] at hne
          exact absurd rfl hne)).2.2.1 10 (by with_unfolding_all decide)
      (by norm_num) (by norm_num)
  have hc : clean_model_name "Model A" = "Model A" := by decide
  rw [hc] at h
  rw [h]
  with_unfolding_all decide

/-- **C4.** Per-reviewer point award with multi-round grouping:
`_calculate_points_for_review` equals the spec-side computation that groups
the reviewer's labels by agent, collapses a multi-round agent's 1-indexed
positions into their average, re-sorts agents by that average ascending and
assigns `25, 12, 6, 3, 2, 1, 0, …` by resulting 0-based position; in
particular `[A1, A2, A3, B1]` with the `A` labels mapped to Agent A and `B1`
to Agent B yields `{Agent A ↦ 25, Agent B ↦ 12}`. -/
theorem C4_points_grouping :
    (∀ (labels : List String) (r : String) (ltm : List (String × String)),
        calculate_points_for_review labels r ltm = specPointsForReview labels ltm) ∧
    calculate_points_for_review
        ["Response A1", "Response A2", "Response A3", "Response B1"] "Reviewer"
        [("Response A1", "Agent A"), ("Response A2", "Agent A"),
         ("Response A3", "Agent A"), ("Response B1", "Agent B")] =
      [("Agent A", 25), ("Agent B", 12)] := by
  constructor
  · intro labels r ltm
    unfold calculate_points_for_review specPointsForReview modelAvgRanks
    rw [modelRanks_spec, List.map_map, awardPoints_enumFrom]
    rfl
  · with_unfolding_all decide

/-- **C6 (amended).** Marker restriction in the rank parser: when the literal
marker `FINAL RANKING:` is present, `parse_ranking_from_text` extracts labels
only from, and from all of, the segment strictly between the first marker
occurrence and its next occurrence (or the end of the text) — labels before
the marker never contribute, and text after a repeated marker is dropped.
Within that segment the strict numbered pattern is preferred, falling back to
bare labels. -/
theorem C6_marker_segment (t : String)
    (h : containsSeq marker t.data = true) :
    parse_ranking_from_text t =
      (if findAll matchNumbered (segBetween marker t.data) ≠ [] then
        findAll matchNumbered (segBetween marker t.data)
      else findAll matchLabel (segBetween marker t.data)) := by
  unfold parse_ranking_from_text
  rw [if_pos h, splitSeq_second_eq_segBetween marker (by decide) t.data h]

/-- Witness for C6: a text with one marker; the parse equals the numbered
extraction from the post-marker segment. -/
theorem C6_amended_witness :
    containsSeq marker "x FINAL RANKING:\n1. Response B\n2. Response A".data = true ∧
      parse_ranking_from_text "x FINAL RANKING:\n1. Response B\n2. Response A" =
        ["Response B", "Response A"] :=
  ⟨by decide,
    (C6_marker_segment "x FINAL RANKING:\n1. Response B\n2. Response A"
      (by decide)).trans (by decide)⟩

/-- **C2 (amended).** Canonicalization is idempotent on every input whose
cleaned form retains no rewritable pattern: if `clean_model_name s` contains
no case-insensitive occurrence of `Thinking` and is a fixed point of the
`Chat GPT` spacing rewrite, then a second application changes nothing.  It is
not idempotent in general: a name ending in two `' Thinking'` suffixes loses
only one per application, because the `\s+Thinking$` pattern is anchored
(see the counterexample). -/
theorem C2_idempotent_when_settled (s : String)
    (hthink : containsSeqCI "thinking".data (clean_model_name s).data = false)
    (hchat : subst matchChatGPT "ChatGPT".data (clean_model_name s).data =
      (clean_model_name s).data) :
    clean_model_name (clean_model_name s) = clean_model_name s := by
  by_cases hempty : clean_model_name s = ""
  · rw [hempty]
    decide
  · rw [clean_model_name, if_neg hempty]
    have hid : ∀ m : List Char → Option (List Char),
        (∀ cs, (m cs).isSome → containsSeqCI "thinking".data cs = true) →
        subst m [] (clean_model_name s).data = (clean_model_name s).data := by
      intro m hm
      apply subst_id
      intro c cs' hs
      rcases he : m (c :: cs') with _ | r
      · rfl
      · exfalso
        have h1 := hm (c :: cs') (by simp [he])
        have h2 := ci_suffix_mono hs h1
        rw [h2] at hthink
        exact absurd hthink (by simp)
    have hstrip : stripTrailingThinking (clean_model_name s).data =
        (clean_model_name s).data := stripTrailingThinking_id hthink
    have hs0 : s ≠ "" := by
      intro e
      rw [e] at hempty
      exact hempty rfl
    have hw : (clean_model_name s).data =
        stripWs (stripTrailingThinking
          (subst matchParenThinking []
            (subst matchBracketThinking []
              (subst matchExtBracket []
                (subst matchExtParen []
                  (subst matchChatGPT "ChatGPT".data s.data)))))) := by
      rw [clean_model_name, if_neg hs0]
      rfl
    show String.mk
        (stripWs (stripTrailingThinking
          (subst matchParenThinking []
            (subst matchBracketThinking []
              (subst matchExtBracket []
                (subst matchExtParen []
                  (subst matchChatGPT "ChatGPT".data
                    (clean_model_name s).data))))))) =
      clean_model_name s
    rw [hchat,
      hid matchExtParen fun cs h => matchExtParen_thinking h,
      hid matchExtBracket fun cs h => matchExtBracket_thinking h,
      hid matchBracketThinking fun cs h => matchBracketThinking_thinking h,
      hid matchParenThinking fun cs h => matchParenThinking_thinking h,
      hstrip, hw, stripWs_idem, ← hw]

/-- Witness for the amended C2: `"Claude 4 [Ext. Thinking]"` cleans to
`"Claude 4"`, which satisfies both settledness conditions, so a second
application is the identity. -/
theorem C2_amended_witness :
    containsSeqCI "thinking".data
        (clean_model_name "Claude 4 [Ext. Thinking]").data = false ∧
      subst matchChatGPT "ChatGPT".data
          (clean_model_name "Claude 4 [Ext. Thinking]").data =
        (clean_model_name "Claude 4 [Ext. Thinking]").data ∧
      clean_model_name (clean_model_name "Claude 4 [Ext. Thinking]") =
        clean_model_name "Claude 4 [Ext. Thinking]" :=
  ⟨by decide, by decide,
    C2_idempotent_when_settled "Claude 4 [Ext. Thinking]" (by decide) (by decide)⟩

/-- **C9.** The turn always produces Stage3 text without raising (the
pipeline is a total function of the provider oracle; provider failures are
`none` results, never exceptions): when zero agents answer in Stage1 the
result is a synthetic error-shaped Stage3 result with non-empty error text
and the later stages do not run (empty Stage2, empty metadata, untouched
scores); when the chairman query fails in Stage3 the result is an explicit
error-text response. -/
theorem C9_total_failure_handling (models : List String)
    (chairmanModel : String) (p : Provider) (scores : List (String × ℚ)) :
    (stage1_collect_responses models p = [] →
        run_full_council models chairmanModel p scores =
          ⟨[], [], (chairmanModel, "Error: No models available."), [], scores⟩ ∧
        "Error: No models available." ≠ "") ∧
    (stage1_collect_responses models p ≠ [] → p.chairmanQuery = none →
        (run_full_council models chairmanModel p scores).stage3 =
          (chairmanModel, "Error: Unable to generate final synthesis.") ∧
        "Error: Unable to generate final synthesis." ≠ "") := by
  constructor
  · intro h
    refine ⟨?_, by decide⟩
    simp only [run_full_council, h]
    rfl
  · intro h hc
    refine ⟨?_, by decide⟩
    simp only [run_full_council, if_neg h, hc]
    rfl

/-- Witness for C9: with one configured model, a provider failing everything
yields the synthetic no-models result, and a provider with a Stage1 answer
but a failing chairman yields the explicit synthesis error text. -/
theorem C9_witness :
    (stage1_collect_responses ["M"]
        ⟨fun _ => none, fun _ => none, none⟩ = [] ∧
      run_full_council ["M"] "Chair" ⟨fun _ => none, fun _ => none, none⟩ [] =
        ⟨[], [], ("Chair", "Error: No models available."), [], []⟩) ∧
    (stage1_collect_responses ["M"]
        ⟨fun _ => some "hi", fun _ => none, none⟩ ≠ [] ∧
      (run_full_council ["M"] "Chair"
          ⟨fun _ => some "hi", fun _ => none, none⟩ []).stage3 =
        ("Chair", "Error: Unable to generate final synthesis.")) :=
  ⟨⟨by decide,
      ((C9_total_failure_handling ["M"] "Chair"
          ⟨fun _ => none, fun _ => none, none⟩ []).1 (by decide)).1⟩,
    ⟨by decide,
      ((C9_total_failure_handling ["M"] "Chair"
          ⟨fun _ => some "hi", fun _ => none, none⟩ []).2 (by decide) rfl).1⟩⟩

/-- **C7 (amended).** Anonymizer label assignment: the ranking-stage labels
of `stage2_collect_rankings` are always the positional letters
`A, B, C, …` (distinct, and `Response <letter i>` resolves to the i-th
Stage1 model through the label→model map) — including when an agent occurs
more than once, in which case its responses get *different plain letters*,
not `A1, A2, …` (see the counterexample); the stable-letter +
1-indexed-occurrence scheme (`A1, A2, B1, …`) is implemented by the chairman
labeling of `build_chairman_prompt`, which matches the spec's Anonymizer
description exactly. -/
theorem C7_label_assignment (stage1 : List Stage1Result)
    (hlen : stage1.length ≤ 26) :
    ((stage2_labels stage1).Nodup ∧
      ∀ p ∈ (stage2_labels stage1).zip stage1,
        dget (stage2_label_to_model stage1) ("Response " ++ p.1) = some p.2.1) ∧
    chairLabels stage1 = specChairLabels stage1 := by
  refine ⟨⟨stage2_labels_nodup hlen, ?_⟩, chairLabels_spec stage1⟩
  intro p hp
  have hkeys : (((stage2_labels stage1).zip stage1).map
      fun p => "Response " ++ p.1).Nodup := by
    rw [show (fun p : String × Stage1Result => "Response " ++ p.1) =
          (fun l => "Response " ++ l) ∘ Prod.fst from rfl,
      ← List.map_map, zip_map_fst]
    refine List.Nodup.map_on ?_
      ((List.take_sublist _ _).nodup (stage2_labels_nodup hlen))
    intro x _ y _ he
    exact string_append_left_cancel he
  rw [stage2_label_to_model,
    stage2LtmAux_flat _ [] (fun _ _ => rfl) hkeys, List.nil_append]
  exact dget_flat_mem hkeys hp

/-- Witness for the amended C7: two distinct models get distinct positional
labels with `Response A` resolving to the first model, and the duplicated
model `"M1"` gets chairman labels `A1, A2` per the spec scheme. -/
theorem C7_amended_witness :
    ([("M1", "r1"), ("M2", "r2")] : List Stage1Result).length ≤ 26 ∧
      dget (stage2_label_to_model [("M1", "r1"), ("M2", "r2")]) "Response A" =
        some "M1" ∧
      chairLabels [("M1", "r1"), ("M1", "r2")] =
        specChairLabels [("M1", "r1"), ("M1", "r2")] := by
  refine ⟨by decide, ?_,
    (C7_label_assignment [("M1", "r1"), ("M1", "r2")] (by decide)).2⟩
  have h := (C7_label_assignment [("M1", "r1"), ("M2", "r2")] (by decide)).1.2
    ("A", ("M1", "r1")) (by decide)
  have e : ("Response " ++ "A" : String) = "Response A" := by decide
  rw [e] at h
  exact h

/-! ### C1 amended: anonymity up to agent renaming

`build_ranking_prompt` is invariant under arbitrary replacement of the Stage1
agent names (its text depends on the Stage1 results only through the response
texts), and `build_chairman_prompt` is invariant under every injective
renaming of the agent identities provided each Stage2 reviewer occurs among
the Stage1 models (the raw-name fallback of `model_to_label.get` being
unreachable then). -/

theorem renameS1_cons (f : String → String) (r : Stage1Result)
    (rest : List Stage1Result) :
    renameS1 f (r :: rest) = (f r.1, r.2) :: renameS1 f rest := rfl

theorem mapKeys_cons {α : Type} (f : String → String) (p : String × α)
    (rest : List (String × α)) :
    mapKeys f (p :: rest) = (f p.1, p.2) :: mapKeys f rest := rfl

theorem dget_mapKeys {α : Type} {f : String → String}
    (hf : Function.Injective f) (d : List (String × α)) (k : String) :
    dget (mapKeys f d) (f k) = dget d k := by
  induction d with
  | nil => rfl
  | cons p rest ih =>
    obtain ⟨k1, v1⟩ := p
    rw [mapKeys_cons, dget, dget]
    by_cases h : k1 = k
    · rw [if_pos (congrArg f h), if_pos h]
    · rw [if_neg (fun he => h (hf he)), if_neg h]
      exact ih

theorem dhas_mapKeys {α : Type} {f : String → String}
    (hf : Function.Injective f) (d : List (String × α)) (k : String) :
    dhas (mapKeys f d) (f k) = dhas d k := by
  rw [dhas, dhas, dget_mapKeys hf]

theorem dset_mapKeys {α : Type} {f : String → String}
    (hf : Function.Injective f) (d : List (String × α)) (k : String) (v : α) :
    dset (mapKeys f d) (f k) v = mapKeys f (dset d k v) := by
  induction d with
  | nil => rfl
  | cons p rest ih =>
    obtain ⟨k1, v1⟩ := p
    rw [mapKeys_cons, dset, dset]
    by_cases h : k1 = k
    · rw [if_pos (congrArg f h), if_pos h, mapKeys_cons]
    · rw [if_neg (fun he => h (hf he)), if_neg h, mapKeys_cons, ih]

theorem indexOfStr_map {f : String → String} (hf : Function.Injective f)
    (m : String) (l : List String) :
    indexOfStr (f m) (l.map f) = indexOfStr m l := by
  induction l with
  | nil => rfl
  | cons a rest ih =>
    by_cases h : a = m
    · simp [indexOfStr, h]
    · have hne : f a ≠ f m := fun he => h (hf he)
      simp [indexOfStr, h, hne, ih]

theorem dhas_dset_self {α : Type} (d : List (String × α)) (k : String)
    (v : α) : dhas (dset d k v) k = true := by
  rw [dhas, dget_dset_self]
  rfl

theorem dhas_dset_mono {α : Type} (d : List (String × α)) {m : String}
    (k : String) (v : α) (h : dhas d m = true) :
    dhas (dset d k v) m = true := by
  by_cases he : m = k
  · subst he
    exact dhas_dset_self ..
  · rw [dhas, dget_dset_ne d v he, ← dhas]
    exact h

theorem renameS1_map_snd (f : String → String) (s1 : List Stage1Result) :
    (renameS1 f s1).map Prod.snd = s1.map Prod.snd := by
  induction s1 with
  | nil => rfl
  | cons r rs ih => simp [renameS1_cons, ih]

theorem map_congr_mem {α β : Type} {l : List α} {g g' : α → β}
    (h : ∀ a ∈ l, g a = g' a) : l.map g = l.map g' := by
  induction l with
  | nil => rfl
  | cons a rest ih =>
    rw [List.map_cons, List.map_cons, h a (List.mem_cons_self a rest),
      ih fun b hb => h b (List.mem_cons_of_mem a hb)]

/-- The label-assignment walk of `build_chairman_prompt` commutes with any
injective renaming of the agent identities: the produced labels are
unchanged, the first-seen order and occurrence counts are renamed. -/
theorem chairAux_rename {f : String → String} (hf : Function.Injective f) :
    ∀ (s1 : List Stage1Result) (order : List String)
      (counts : List (String × Nat)),
      chairAux (renameS1 f s1) (order.map f) (mapKeys f counts) =
        ((chairAux s1 order counts).1.map f,
          mapKeys f (chairAux s1 order counts).2.1,
          (chairAux s1 order counts).2.2) := by
  intro s1
  induction s1 with
  | nil => intro order counts; rfl
  | cons r rest ih =>
    intro order counts
    rw [renameS1_cons, chairAux, chairAux]
    simp only []
    by_cases hmem : dhas counts r.1 = true
    · have hdhL : dhas (mapKeys f counts) (f r.1) = true := by
        rw [dhas, dget_mapKeys hf, ← dhas]
        exact hmem
      rw [if_pos hdhL, if_pos hdhL, if_pos hmem, if_pos hmem,
        dget_mapKeys hf, dset_mapKeys hf, indexOfStr_map hf, ih]
    · have hdhL : ¬dhas (mapKeys f counts) (f r.1) = true := by
        rw [dhas, dget_mapKeys hf, ← dhas]
        exact hmem
      rw [if_neg hdhL, if_neg hdhL, if_neg hmem, if_neg hmem,
        dset_mapKeys hf, dget_mapKeys hf, dset_mapKeys hf,
        show order.map f ++ [f r.1] = (order ++ [r.1]).map f by simp,
        indexOfStr_map hf, ih]

theorem chairAux_labels_length :
    ∀ (s1 : List Stage1Result) (order : List String)
      (counts : List (String × Nat)),
      (chairAux s1 order counts).2.2.length = s1.length := by
  intro s1
  induction s1 with
  | nil => intro order counts; rfl
  | cons r rest ih =>
    intro order counts
    rw [chairAux]
    simp only []
    simp only [List.length_cons]
    rw [ih]

theorem zip_renameS1 (f : String → String) (labels : List String) :
    ∀ s1 : List Stage1Result,
      labels.zip (renameS1 f s1) =
        (labels.zip s1).map fun q => (q.1, f q.2.1, q.2.2) := by
  induction labels with
  | nil => intro s1; rfl
  | cons l ls ih =>
    intro s1
    cases s1 with
    | nil => rfl
    | cons r rs =>
      rw [renameS1_cons]
      simp only [List.zip_cons_cons, List.map_cons]
      rw [ih rs]

theorem modelToLabelAux_rename {f : String → String}
    (hf : Function.Injective f) :
    ∀ (zs : List (String × Stage1Result)) (acc : List (String × String)),
      modelToLabelAux (mapKeys f acc)
          (zs.map fun q => (q.1, f q.2.1, q.2.2)) =
        mapKeys f (modelToLabelAux acc zs) := by
  intro zs
  induction zs with
  | nil => intro acc; rfl
  | cons q rest ih =>
    intro acc
    simp only [List.map_cons, modelToLabelAux]
    rw [dset_mapKeys hf]
    exact ih (dset acc q.2.1 ("Response " ++ q.1))

theorem modelToLabel_rename {f : String → String}
    (hf : Function.Injective f) (labels : List String)
    (s1 : List Stage1Result) :
    modelToLabel labels (renameS1 f s1) =
      mapKeys f (modelToLabel labels s1) := by
  rw [modelToLabel, modelToLabel, zip_renameS1]
  exact modelToLabelAux_rename hf (labels.zip s1) []

theorem dhas_modelToLabelAux :
    ∀ (zs : List (String × Stage1Result)) (acc : List (String × String))
      (m : String),
      ((m ∈ zs.map fun q => q.2.1) ∨ dhas acc m = true) →
      dhas (modelToLabelAux acc zs) m = true := by
  intro zs
  induction zs with
  | nil =>
    intro acc m h
    rcases h with h | h
    · simp at h
    · exact h
  | cons q rest ih =>
    intro acc m h
    rw [modelToLabelAux]
    apply ih
    rcases h with h | h
    · rw [List.map_cons, List.mem_cons] at h
      rcases h with h | h
      · right
        rw [h]
        exact dhas_dset_self ..
      · left
        exact h
    · right
      exact dhas_dset_mono _ _ _ h

theorem zip_snd_fst_full (labels : List String) :
    ∀ s1 : List Stage1Result, s1.length ≤ labels.length →
      ((labels.zip s1).map fun q => q.2.1) = s1.map Prod.fst := by
  induction labels with
  | nil =>
    intro s1 h
    cases s1 with
    | nil => rfl
    | cons r rs => simp at h
  | cons l ls ih =>
    intro s1 h
    cases s1 with
    | nil => rfl
    | cons r rs =>
      simp only [List.zip_cons_cons, List.map_cons]
      rw [ih rs (by simp only [List.length_cons] at h; omega)]

theorem any_mapKeys_gt1 (f : String → String) (d : List (String × Nat)) :
    ((mapKeys f d).any fun p => p.2 > 1) = d.any fun p => p.2 > 1 := by
  induction d with
  | nil => rfl
  | cons p rest ih =>
    rw [mapKeys_cons]
    simp only [List.any_cons]
    rw [ih]

theorem responsesText_models_irrel (labels : List String)
    {s1 s1' : List Stage1Result}
    (h : s1.map Prod.snd = s1'.map Prod.snd) :
    responsesText labels s1 = responsesText labels s1' := by
  rw [responsesText, responsesText]
  congr 1
  induction labels generalizing s1 s1' with
  | nil => rfl
  | cons l ls ih =>
    cases s1 with
    | nil =>
      cases s1' with
      | nil => rfl
      | cons r' rs' => simp at h
    | cons r rs =>
      cases s1' with
      | nil => simp at h
      | cons r' rs' =>
        simp only [List.map_cons, List.cons.injEq] at h
        simp only [List.zip_cons_cons, List.map_cons]
        rw [h.1, ih h.2]

theorem rankingMultiRoundNote_len (labels : List String)
    {s1 s1' : List Stage1Result} (h : s1.length = s1'.length) :
    rankingMultiRoundNote labels s1 = rankingMultiRoundNote labels s1' := by
  rw [rankingMultiRoundNote, rankingMultiRoundNote, zip_map_fst, zip_map_fst,
    h]

theorem chairMultiRoundNote_len (labels : List String)
    {s1 s1' : List Stage1Result} (h : s1.length = s1'.length) (b : Bool) :
    chairMultiRoundNote labels s1 b = chairMultiRoundNote labels s1' b := by
  rw [chairMultiRoundNote, chairMultiRoundNote, zip_map_fst, zip_map_fst, h]

/-- `build_ranking_prompt` never reads the Stage1 agent names: its text is a
function of the response texts, the labels, the query and the context. -/
theorem build_ranking_prompt_models_irrel (q : String)
    {s1 s1' : List Stage1Result} (labels : List String) (ctx : List CtxMsg)
    (h : s1.map Prod.snd = s1'.map Prod.snd) :
    build_ranking_prompt q s1 labels ctx =
      build_ranking_prompt q s1' labels ctx := by
  have hlen : s1.length = s1'.length := by
    have h2 := congrArg List.length h
    simpa using h2
  rw [build_ranking_prompt, build_ranking_prompt,
    responsesText_models_irrel labels h, rankingMultiRoundNote_len labels hlen]

/-- `build_chairman_prompt` is invariant under every injective renaming of
the agent identities, provided each Stage2 reviewer occurs among the Stage1
models (so the raw-name `.get` fallback is never taken). -/
theorem build_chairman_prompt_rename {f : String → String}
    (hf : Function.Injective f) (q : String) (s1 : List Stage1Result)
    (s2 : List Stage2Result) (ctx : List CtxMsg)
    (hrev : ∀ r ∈ s2, r.1 ∈ s1.map Prod.fst) :
    build_chairman_prompt q (renameS1 f s1) (renameS2 f s2) ctx =
      build_chairman_prompt q s1 s2 ctx := by
  have hst : chairAux (renameS1 f s1) [] [] =
      ((chairAux s1 [] []).1.map f, mapKeys f (chairAux s1 [] []).2.1,
        (chairAux s1 [] []).2.2) := chairAux_rename hf s1 [] []
  have hsnd : (renameS1 f s1).map Prod.snd = s1.map Prod.snd :=
    renameS1_map_snd f s1
  have hlen : (renameS1 f s1).length = s1.length := by
    rw [renameS1, List.length_map]
  have hs2 : (renameS2 f s2).map (fun r =>
        "Ranking by " ++
          (dget (mapKeys f (modelToLabel ((chairAux s1 [] []).2.2) s1))
              r.1).getD r.1 ++ ":\n" ++ r.2) =
      s2.map (fun r =>
        "Ranking by " ++
          (dget (modelToLabel ((chairAux s1 [] []).2.2) s1) r.1).getD r.1 ++
          ":\n" ++ r.2) := by
    rw [renameS2, List.map_map]
    apply map_congr_mem
    intro r hr
    have hmem := hrev r hr
    have hhas : dhas (modelToLabel ((chairAux s1 [] []).2.2) s1) r.1 =
        true := by
      rw [modelToLabel]
      apply dhas_modelToLabelAux
      left
      rw [zip_snd_fst_full _ _
        (le_of_eq (chairAux_labels_length s1 [] []).symm)]
      exact hmem
    rw [dhas] at hhas
    obtain ⟨lbl, hlbl⟩ := Option.isSome_iff_exists.mp hhas
    simp only [Function.comp_apply]
    rw [dget_mapKeys hf, hlbl, Option.getD_some, Option.getD_some]
  simp only [build_chairman_prompt, hst]
  rw [any_mapKeys_gt1, modelToLabel_rename hf, hs2,
    responsesText_models_irrel _ hsnd, chairMultiRoundNote_len _ hlen]

/-- **C1** (amended).  The original claim fails (see the counterexample: a
reviewer absent from Stage1 leaks its raw name into the chairman prompt via
the `model_to_label.get(..., fallback)` default).  What does hold: the Stage2
ranking prompt is completely independent of the Stage1 agent names (only the
response texts and the given labels enter its text), and the Stage3 chairman
prompt is invariant under every injective renaming of the agent identities
whenever every Stage2 reviewer occurs among the Stage1 models — so neither
prompt distinguishes raw agent names beyond their anonymized labels. -/
theorem C1_anonymity (f : String → String) (q : String)
    (s1 s1' : List Stage1Result) (s2 : List Stage2Result)
    (labels : List String) (ctx : List CtxMsg)
    (hf : Function.Injective f)
    (hresp : s1.map Prod.snd = s1'.map Prod.snd)
    (hrev : ∀ r ∈ s2, r.1 ∈ s1.map Prod.fst) :
    build_ranking_prompt q s1 labels ctx =
        build_ranking_prompt q s1' labels ctx ∧
      build_chairman_prompt q (renameS1 f s1) (renameS2 f s2) ctx =
        build_chairman_prompt q s1 s2 ctx :=
  ⟨build_ranking_prompt_models_irrel q labels ctx hresp,
    build_chairman_prompt_rename hf q s1 s2 ctx hrev⟩

/-- Witness for the amended C1: two different agents with the same response
text yield the same ranking prompt, and prefixing every agent name with
`"X"` (an injective renaming) leaves the chairman prompt unchanged. -/
theorem C1_amended_witness :
    build_ranking_prompt "q" [("M", "r")] ["A"] [] =
        build_ranking_prompt "q" [("N", "r")] ["A"] [] ∧
      build_chairman_prompt "q" (renameS1 (fun s => "X" ++ s) [("M", "r")])
          (renameS2 (fun s => "X" ++ s) [("M", "rank")]) [] =
        build_chairman_prompt "q" [("M", "r")] [("M", "rank")] [] :=
  C1_anonymity (fun s => "X" ++ s) "q" [("M", "r")] [("N", "r")]
    [("M", "rank")] ["A"] [] (fun a b h => string_append_left_cancel h)
    rfl (by decide)

end LLMCouncil
